import Mathlib

/-!
Verification of `src/two_phase_dir_first.py` (two-phase dir-first parallel
crawler).  The Python program is shallowly embedded: pure fragments become
Lean functions, the filesystem is a finite tree value, the worker bodies
with their `try/except` structure become explicit `Except`-style functions,
and the top-level phase barrier of `main` becomes a small-step machine.
Machine integers do not occur in the source except for the 64-bit words of
the BLAKE2b digest, which are modelled as `Nat` with explicit `% 2 ^ 64`.
-/

/-! ## Bytes and UTF-8

`emit_dir` (line 57) and the shard writes (line 144) encode relative paths
with `str.encode("utf-8", "surrogatepass")` and append one NUL byte.  Bytes
are modelled as `Nat` (each < 256).  `utf8Char` is the standard UTF-8
encoding of one code point (with surrogates passed through, matching
`surrogatepass`); `utf8Dec` is the matching decoder. -/

/-- UTF-8 encoding of a single code point `n < 0x110000` as a byte list. -/
def utf8Char (n : Nat) : List Nat :=
  if n < 0x80 then [n]
  else if n < 0x800 then [0xC0 + n / 64, 0x80 + n % 64]
  else if n < 0x10000 then
    [0xE0 + n / 4096, 0x80 + (n / 64) % 64, 0x80 + n % 64]
  else
    [0xF0 + n / 262144, 0x80 + (n / 4096) % 64, 0x80 + (n / 64) % 64, 0x80 + n % 64]

/-- UTF-8 encoding of a list of code points. -/
def utf8Enc (l : List Nat) : List Nat := l.flatMap utf8Char

/-- UTF-8 decoding automaton: `need` is the number of continuation bytes
still expected, `acc` the partial code point.  Truncated or invalid input
yields junk, which never arises on the encoder's output. -/
def utf8DecA : Nat → Nat → List Nat → List Nat
  | _, _, [] => []
  | 0, _, b :: bs =>
    if b < 0x80 then b :: utf8DecA 0 0 bs
    else if b < 0xE0 then utf8DecA 1 (b - 0xC0) bs
    else if b < 0xF0 then utf8DecA 2 (b - 0xE0) bs
    else utf8DecA 3 (b - 0xF0) bs
  | 1, acc, b :: bs => (acc * 64 + (b - 0x80)) :: utf8DecA 0 0 bs
  | need + 2, acc, b :: bs => utf8DecA (need + 1) (acc * 64 + (b - 0x80)) bs

/-- UTF-8 decoder (inverse of `utf8Enc` on valid encodings). -/
def utf8Dec (bs : List Nat) : List Nat := utf8DecA 0 0 bs

/-- `s.encode("utf-8", "surrogatepass")`: the UTF-8 bytes of a string. -/
def strBytes (s : String) : List Nat := utf8Enc (s.data.map Char.toNat)

/-- `bytes.decode("utf-8", "surrogatepass")` on valid encodings. -/
def strDecode (bs : List Nat) : String := String.mk ((utf8Dec bs).map Char.ofNat)

/-! ## Relative paths

`relpath` (lines 4-6) represents the root as `"."`; a child of the
directory with relative path `d` has relative path `d + os.sep + name`
(bare `name` for children of the root).  This is exactly how `file_worker`
builds `rel_file` (lines 139-142); `os.sep` is `"/"` on the POSIX platform
the program targets. -/

/-- Relative path of entry `name` inside the directory with relative path
`dir_rel` (source lines 139-142; also the value of
`os.path.relpath(root, de.path)` for a child of a directory below root). -/
def relFile (dir_rel name : String) : String :=
  if dir_rel = "." then name else dir_rel ++ "/" ++ name

/-- Relative path of the directory reached from the root by the given chain
of entry names (`[]` is the root itself, rendered `"."`). -/
def render (c : List String) : String := c.foldl relFile "."

/-! ## BLAKE2b (`hashlib.blake2b(..., digest_size=4)`)

`choose_out` (lines 108-122) routes via a 4-byte BLAKE2b digest.  The
full RFC 7693 BLAKE2b is embedded: 64-bit words are `Nat` reduced
`% 2 ^ 64`, message blocks are 128 bytes, 12 rounds per block. -/

/-- 64-bit modular addition. -/
def add64 (a b : Nat) : Nat := (a + b) % 2 ^ 64

/-- 64-bit right rotation (argument assumed < 2 ^ 64). -/
def rotr64 (x n : Nat) : Nat := ((x >>> n) ||| (x <<< (64 - n))) % 2 ^ 64

/-- BLAKE2b initialization vector (RFC 7693). -/
def blakeIV : List Nat :=
  [0x6a09e667f3bcc908, 0xbb67ae8584caa73b, 0x3c6ef372fe94f82b, 0xa54ff53a5f1d36f1,
   0x510e527fade682d1, 0x9b05688c2b3e6c1f, 0x1f83d9abfb41bd6b, 0x5be0cd19137e2179]

/-- BLAKE2 message schedule permutations (RFC 7693). -/
def blakeSigma : List (List Nat) :=
  [[0, 1, 2, 3, 4, 5, 6, 7, 8, 9, 10, 11, 12, 13, 14, 15],
   [14, 10, 4, 8, 9, 15, 13, 6, 1, 12, 0, 2, 11, 7, 5, 3],
   [11, 8, 12, 0, 5, 2, 15, 13, 10, 14, 3, 6, 7, 1, 9, 4],
   [7, 9, 3, 1, 13, 12, 11, 14, 2, 6, 5, 10, 4, 0, 15, 8],
   [9, 0, 5, 7, 2, 4, 10, 15, 14, 1, 11, 12, 6, 8, 3, 13],
   [2, 12, 6, 10, 0, 11, 8, 3, 4, 13, 7, 5, 15, 14, 1, 9],
   [12, 5, 1, 15, 14, 13, 4, 10, 0, 7, 6, 3, 9, 2, 8, 11],
   [13, 11, 7, 14, 12, 1, 3, 9, 5, 0, 15, 4, 8, 6, 2, 10],
   [6, 15, 14, 9, 11, 3, 0, 8, 12, 2, 13, 7, 1, 4, 10, 5],
   [10, 2, 8, 4, 7, 6, 1, 5, 15, 11, 9, 14, 3, 12, 13, 0]]

/-- The BLAKE2 `G` mixing function on a 16-word working vector. -/
def gmix (v : List Nat) (a b c d x y : Nat) : List Nat :=
  let va := v.getD a 0
  let vb := v.getD b 0
  let vc := v.getD c 0
  let vd := v.getD d 0
  let va1 := add64 (add64 va vb) x
  let vd1 := rotr64 (vd ^^^ va1) 32
  let vc1 := add64 vc vd1
  let vb1 := rotr64 (vb ^^^ vc1) 24
  let va2 := add64 (add64 va1 vb1) y
  let vd2 := rotr64 (vd1 ^^^ va2) 16
  let vc2 := add64 vc1 vd2
  let vb2 := rotr64 (vb1 ^^^ vc2) 63
  ((((v.set a va2).set b vb2).set c vc2).set d vd2)

/-- One BLAKE2b round: column and diagonal `G` applications using the
round's message permutation `s` over message words `m`. -/
def blakeRound (m : List Nat) (v : List Nat) (r : Nat) : List Nat :=
  let s := blakeSigma.getD (r % 10) []
  let mi := fun i => m.getD (s.getD i 0) 0
  let v1 := gmix v 0 4 8 12 (mi 0) (mi 1)
  let v2 := gmix v1 1 5 9 13 (mi 2) (mi 3)
  let v3 := gmix v2 2 6 10 14 (mi 4) (mi 5)
  let v4 := gmix v3 3 7 11 15 (mi 6) (mi 7)
  let v5 := gmix v4 0 5 10 15 (mi 8) (mi 9)
  let v6 := gmix v5 1 6 11 12 (mi 10) (mi 11)
  let v7 := gmix v6 2 7 8 13 (mi 12) (mi 13)
  gmix v7 3 4 9 14 (mi 14) (mi 15)

/-- Little-endian value of a byte list (first byte least significant);
this is also Python's `int.from_bytes(h, "little")` (line 122). -/
def leWord (bs : List Nat) : Nat := bs.foldr (fun b acc => b + 256 * acc) 0

/-- The 16 little-endian 64-bit message words of one (zero-padded)
128-byte block. -/
def blockWords (block : List Nat) : List Nat :=
  let padded := block ++ List.replicate (128 - block.length) 0
  (List.range 16).map fun i => leWord ((padded.drop (8 * i)).take 8)

/-- The BLAKE2b compression function `F(h, m, t, last)`. -/
def blakeF (h : List Nat) (m : List Nat) (t : Nat) (last : Bool) : List Nat :=
  let v0 := h ++ blakeIV
  let v1 := v0.set 12 (v0.getD 12 0 ^^^ (t % 2 ^ 64))
  let v2 := v1.set 13 (v1.getD 13 0 ^^^ (t / 2 ^ 64 % 2 ^ 64))
  let v3 := if last then v2.set 14 (v2.getD 14 0 ^^^ (2 ^ 64 - 1)) else v2
  let v := (List.range 12).foldl (blakeRound m) v3
  (List.range 8).map fun i => h.getD i 0 ^^^ v.getD i 0 ^^^ v.getD (8 + i) 0

/-- Block iteration: compress full 128-byte blocks, the final (possibly
short, possibly empty) block with the `last` flag and `t` = total length.
`fuel` only bounds the recursion; it is always sufficient at the call site
in `blake2b` since the message shrinks by 128 per step. -/
def blakeGo (fuel : Nat) (h : List Nat) (t : Nat) (msg : List Nat) : List Nat :=
  match fuel with
  | 0 => blakeF h (blockWords msg) (t + msg.length) true
  | fuel + 1 =>
    if msg.length ≤ 128 then blakeF h (blockWords msg) (t + msg.length) true
    else blakeGo fuel (blakeF h (blockWords (msg.take 128)) (t + 128) false) (t + 128)
      (msg.drop 128)

/-- Serialize a 64-bit word to 8 little-endian bytes. -/
def leBytes8 (w : Nat) : List Nat := (List.range 8).map fun i => w >>> (8 * i) % 256

/-- `hashlib.blake2b(data, digest_size=nn).digest()` for an unkeyed hash:
parameter word `0x01010000 ^^^ nn` mixed into `h0`, then block iteration,
then the first `nn` bytes of the little-endian state. -/
def blake2b (nn : Nat) (msg : List Nat) : List Nat :=
  let h0 := blakeIV.set 0 (blakeIV.getD 0 0 ^^^ (0x01010000 ^^^ nn))
  ((blakeGo msg.length h0 0 msg).flatMap leBytes8).take nn

/-! ## Shard routing (`choose_out`, lines 108-122) -/

/-- The three `--mode` values (line 27). -/
inductive Mode where
  | roundrobin
  | hash
  | bydir
deriving DecidableEq

/-- One call of `choose_out(full_rel_path, dir_rel)` (lines 108-122), with
the shared `rr_counter` passed and returned explicitly (it is read and
incremented under `rr_lock` only in the `roundrobin` branch, and only when
there is more than one output). Returns (chosen index, new counter). -/
def chooseOutStep (mode : Mode) (nOuts : Nat) (rr : Nat)
    (full_rel_path dir_rel : String) : Nat × Nat :=
  if nOuts = 1 then (0, rr)
  else
    match mode with
    | .roundrobin => (rr % nOuts, rr + 1)
    | .bydir => (leWord (blake2b 4 (strBytes dir_rel)) % nOuts, rr)
    | .hash => (leWord (blake2b 4 (strBytes full_rel_path)) % nOuts, rr)

/-! ## NUL-delimited record streams

`emit_dir` (lines 54-60) writes `rel_dir` UTF-8 bytes plus one `0x00`.
`main`'s phase-2 input loop (lines 164-180) reads the ledger file back in
chunks, accumulates a buffer, splits out every complete record before a
NUL, keeps the remainder in the buffer, and maps every decoded record
through `or "."` (empty record becomes the root sentinel). -/

/-- Byte stream written for a sequence of records: each record's UTF-8
bytes followed by one NUL (`emit_dir`, line 57; shard writes, line 144). -/
def encodeSeq (ps : List String) : List Nat := ps.flatMap fun s => strBytes s ++ [0]

/-- Split a buffer into (complete records before each NUL, remainder after
the last NUL).  This is the inner `while True: buf.index(0, start)` loop of
lines 171-180 applied to one buffer. -/
def extractRecords : List Nat → List (List Nat) × List Nat
  | [] => ([], [])
  | b :: bs =>
    if b = 0 then ([] :: (extractRecords bs).1, (extractRecords bs).2)
    else
      match extractRecords bs with
      | ([], rest) => ([], b :: rest)
      | (r :: rs, rest) => ((b :: r) :: rs, rest)

/-- `buf[start:i].decode("utf-8", "surrogatepass") or "."` (line 178): an
empty decoded record is replaced by the root sentinel. -/
def orDot (r : List Nat) : String := if strDecode r = "" then "." else strDecode r

/-- One iteration of the outer chunk loop (lines 166-180): append the chunk
to the carried buffer, emit all complete records (decoded, `or "."`), carry
the rest. State is (records emitted so far, carried buffer). -/
def streamStep (st : List String × List Nat) (chunk : List Nat) : List String × List Nat :=
  let er := extractRecords (st.2 ++ chunk)
  (st.1 ++ er.1.map orDot, er.2)

/-- The whole phase-2 input loop (lines 164-180) over a list of chunks as
returned by successive `f.read(1024*1024)` calls: the sequence of directory
records pushed onto `dir_in_q`.  Any trailing bytes after the last NUL are
dropped at end of file, as in the source. -/
def streamDecode (chunks : List (List Nat)) : List String :=
  (chunks.foldl streamStep ([], [])).1

/-! ## The filesystem model

The crawler consumes the filesystem only through `os.scandir` and the
`DirEntry` classifiers (spec section 6 makes these a provided capability).
A directory's contents are a list of entries; `dir name link ok es` is a
directory entry (`link` = it is a symlink to a directory, `ok` = a later
`os.scandir` on it succeeds, `es` = its entries), `file name link` is a
non-directory entry (`link` = it is a symlink), and `statErr name` is an
entry whose classification (`de.is_dir` / `de.is_file`) raises an
`OSError`.  `de.is_dir(follow_symlinks=f)` is true for `dir` entries with
`link → f`; `de.is_file(follow_symlinks=False)` is true exactly for
`file name false`. -/

inductive FSEntry where
  | dir (name : String) (link : Bool) (ok : Bool) (entries : List FSEntry)
  | file (name : String) (link : Bool)
  | statErr (name : String)

/-- The name `os.scandir` reports for an entry. -/
def entryName : FSEntry → String
  | .dir n _ _ _ => n
  | .file n _ => n
  | .statErr n => n

/-! ## Phase 1 — directory discovery (`dir_worker`, lines 66-86)

A worker dequeues a directory, lists it (a failing `os.scandir` abandons
the directory, lines 83-84), and for every child classified as a directory
under the symlink policy (line 76) whose name is not excluded (line 77)
appends the child's relative path to the ledger (line 79) and enqueues it
(line 80).  A failing classification skips that entry (lines 81-82).
Workers interleave nondeterministically; the ledger below fixes one
(depth-first) emission order — every claim proved about it is insensitive
to record order.  Enqueuing for later expansion is modelled by direct
recursion into the child. -/

/-- Ledger records contributed by one scanned entry `e` of a directory
with relative path `rel` (and, recursively, by `e`'s whole subtree). -/
def scanEntry (excl : List String) (follow : Bool) (rel : String) : FSEntry → List String
  | .file _ _ => []
  | .statErr _ => []
  | .dir n link ok es =>
    if link && !follow then []
    else if n ∈ excl then []
    else
      relFile rel n ::
        (if ok then
          (es.attach.map fun e => scanEntry excl follow (relFile rel n) e.1).flatten
        else [])
termination_by e => sizeOf e
decreasing_by
  have h1 := List.sizeOf_lt_of_mem e.2
  simp only [FSEntry.dir.sizeOf_spec]
  omega

/-- Ledger records contributed by scanning a directory with entry list `es`
at relative path `rel`. -/
def scanList (excl : List String) (follow : Bool) (rel : String) (es : List FSEntry) :
    List String :=
  (es.map (scanEntry excl follow rel)).flatten

/-- The full Directory Ledger record sequence: the root sentinel `"."` is
recorded before any worker starts (line 63), then the workers' records;
`rootOk` tells whether `os.scandir(root)` itself succeeds. -/
def ledgerList (excl : List String) (follow : Bool) (rootOk : Bool)
    (rootEs : List FSEntry) : List String :=
  "." :: (if rootOk then scanList excl follow "." rootEs else [])

/-- The bytes of the ledger file after phase 1. -/
def ledgerBytes (excl : List String) (follow : Bool) (rootOk : Bool)
    (rootEs : List FSEntry) : List Nat :=
  encodeSeq (ledgerList excl follow rootOk rootEs)

/-! ## Phase 2 — file listing (`file_worker`, lines 126-158, `main` 164-180)

Phase 2 reads each ledger record back as a string, forms
`os.path.join(root, dir_rel)` (or `root` itself for `"."`, line 132) and
lists it with `os.scandir`.  The operating system resolves the joined path
component-wise; on the tree model this is `descend` over the `"/"`-split
record.  For every entry that is a regular (non-symlink) file the worker
emits `rel_file` to the shard chosen by `choose_out`. -/

/-- Split a character list on `'/'` (how the OS decomposes the relative
path handed to `os.scandir`). Always returns at least one component. -/
def splitSep : List Char → List (List Char)
  | [] => [[]]
  | c :: cs =>
    if c = '/' then [] :: splitSep cs
    else
      match splitSep cs with
      | [] => [[c]]
      | p :: ps => (c :: p) :: ps

/-- Concatenate components with `'/'` separators (inverse of `splitSep`
for components free of `'/'`). -/
def joinSep : List (List Char) → List Char
  | [] => []
  | [p] => p
  | p :: q :: ps => p ++ '/' :: joinSep (q :: ps)

/-- The name components of a non-`"."` relative path. -/
def parseRel (s : String) : List String := (splitSep s.data).map String.mk

/-- First entry of a directory listing with the given name (sibling names
are distinct on a real filesystem, so this is the entry). -/
def findEntry (n : String) (es : List FSEntry) : Option FSEntry :=
  es.find? fun e => entryName e = n

/-- Resolve a chain of name components against a directory listing,
returning the target directory's `(ok, entries)`; `none` models the
`OSError` that `os.scandir` raises when the path does not lead to a
directory (swallowed by `file_worker`, lines 155-156). -/
def descend : List String → List FSEntry → Option (Bool × List FSEntry)
  | [], _ => none
  | [n], es =>
    match findEntry n es with
    | some (.dir _ _ ok sub) => some (ok, sub)
    | _ => none
  | n :: n2 :: rest, es =>
    match findEntry n es with
    | some (.dir _ _ _ sub) => descend (n2 :: rest) sub
    | _ => none

/-- `os.scandir(root if dir_rel == "." else os.path.join(root, dir_rel))`
(lines 132-134) on the modelled tree. -/
def resolveDir (rootOk : Bool) (rootEs : List FSEntry) (dir_rel : String) :
    Option (Bool × List FSEntry) :=
  if dir_rel = "." then some (rootOk, rootEs) else descend (parseRel dir_rel) rootEs

/-- Names of the entries satisfying `de.is_file(follow_symlinks=False)`
(line 137): regular files that are not symlinks; entries whose
classification raises are skipped (lines 153-154). -/
def filesOf (es : List FSEntry) : List String :=
  es.filterMap fun e =>
    match e with
    | .file n false => some n
    | _ => none

/-- The sequence of directory records phase 2 dequeues: the ledger bytes
streamed back through the chunked NUL-splitting loop (here as one chunk;
the chunking is irrelevant, see `streamDecode_eq_extract`). -/
def phase2Input (excl : List String) (follow : Bool) (rootOk : Bool)
    (rootEs : List FSEntry) : List String :=
  streamDecode [ledgerBytes excl follow rootOk rootEs]

/-- Relative file paths emitted for one dequeued directory record
(`file_worker` body, lines 132-156, ignoring shard choice): a failing
listing yields nothing. -/
def filesOfRecord (rootOk : Bool) (rootEs : List FSEntry) (dir_rel : String) :
    List String :=
  match resolveDir rootOk rootEs dir_rel with
  | none => []
  | some (ok, es) => if ok then (filesOf es).map (relFile dir_rel) else []

/-- All relative file paths emitted by phase 2 (across all shards), in the
model's sequential order. -/
def phase2Files (excl : List String) (follow : Bool) (rootOk : Bool)
    (rootEs : List FSEntry) : List String :=
  (phase2Input excl follow rootOk rootEs).flatMap (filesOfRecord rootOk rootEs)

/-! ## Clean trees

Real directory entries have nonempty names, are not `"."` or `".."`, and
contain neither `'/'` nor NUL; sibling names are distinct.  Claims about
the composed pipeline assume this. -/

/-- A well-formed entry name as the OS can actually report it. -/
def cleanNameB (s : String) : Bool :=
  !(s == "") && !(s == ".") && !(s == "..") &&
    s.data.all fun ch => !(ch == '/') && !(ch.toNat == 0)

/-- Every name in the chain is well formed. -/
def cleanChain (c : List String) : Bool := c.all cleanNameB

/-- Well-formedness of an entry and (recursively) of its subtree. -/
def entClean : FSEntry → Bool
  | .file n _ => cleanNameB n
  | .statErr n => cleanNameB n
  | .dir n _ _ es =>
    cleanNameB n && decide ((es.map entryName).Nodup) &&
      (es.attach.all fun e => entClean e.1)
termination_by e => sizeOf e
decreasing_by
  have h1 := List.sizeOf_lt_of_mem e.2
  simp only [FSEntry.dir.sizeOf_spec]
  omega

/-- Well-formedness of a directory listing: distinct sibling names and
well-formed entries, recursively. -/
def cleanL (es : List FSEntry) : Bool :=
  decide ((es.map entryName).Nodup) && es.all entClean

/-! ## Reachable directory chains

`LChain excl follow es c d` says: starting from the listing `es`, the
chain of names `c` descends through directories that phase 1 actually
recurses into — each one classified as a directory under the symlink
policy, not excluded, and all but the last one listable — ending at entry
`d`.  These are exactly the directories phase 1 appends to the ledger. -/

inductive LChain (excl : List String) (follow : Bool) :
    List FSEntry → List String → FSEntry → Prop where
  | single {es : List FSEntry} {n : String} {link ok : Bool} {sub : List FSEntry}
      (hmem : FSEntry.dir n link ok sub ∈ es)
      (hlink : link = true → follow = true) (hexcl : n ∉ excl) :
      LChain excl follow es [n] (.dir n link ok sub)
  | step {es : List FSEntry} {n : String} {link : Bool} {sub : List FSEntry}
      {c : List String} {d : FSEntry}
      (hmem : FSEntry.dir n link true sub ∈ es)
      (hlink : link = true → follow = true) (hexcl : n ∉ excl)
      (htail : LChain excl follow sub c d) :
      LChain excl follow es (n :: c) d

/-! ## Worker bodies with explicit exceptions (C1, C7)

The `try/except (PermissionError, OSError)` structure of `dir_worker`
(lines 66-86) and `file_worker` (lines 126-158) is embedded with the
possible outcomes of every fallible operation passed in as data.  `Err` is
the universe of exceptions these operations raise: `PermissionError` and
the other `OSError`s (Python 3's `IOError` is an alias of `OSError`, so
write failures on the output sinks are `Err.os` too). -/

inductive Err where
  | perm
  | os
deriving DecidableEq

/-- Does `except (PermissionError, OSError)` catch this exception?
(Exactly the tuple on lines 81, 83, 153, 155.) -/
def caughtErr : Err → Bool
  | .perm => true
  | .os => true

/-- A phase-1 directory entry as seen by `dir_worker`: its name and the
outcome of `de.is_dir(follow_symlinks=follow)` (line 76). -/
structure Ent1 where
  name : String
  isDir : Except Err Bool

/-- A phase-2 directory entry as seen by `file_worker`: its name and the
outcome of `de.is_file(follow_symlinks=False)` (line 137). -/
structure Ent2 where
  name : String
  isFile : Except Err Bool

/-- The per-entry body of `dir_worker` (lines 75-82) for the directory at
relative path `dirRel`; `em` is the outcome of `emit_dir` for a given
record (line 79).  Returns (ledger records written, children enqueued,
exception raised out of this entry, if any — before the `except` clause
is consulted). -/
def dirEntryStep (excl : List String) (dirRel : String)
    (em : String → Except Err Unit) (e : Ent1) :
    List String × List String × Option Err :=
  match e.isDir with
  | .error er => ([], [], some er)
  | .ok false => ([], [], none)
  | .ok true =>
    if e.name ∈ excl then ([], [], none)
    else
      match em (relFile dirRel e.name) with
      | .error er => ([], [], some er)
      | .ok _ => ([relFile dirRel e.name], [relFile dirRel e.name], none)

/-- The entry loop of `dir_worker` (lines 74-82): a raised exception that
`except (PermissionError, OSError)` catches means `continue`; an uncaught
one aborts the loop and propagates (third component). -/
def dirLoop (excl : List String) (dirRel : String)
    (em : String → Except Err Unit) :
    List Ent1 → List String × List String × Option Err
  | [] => ([], [], none)
  | e :: es =>
    let r := dirEntryStep excl dirRel em e
    match r.2.2 with
    | some er =>
      if caughtErr er then
        let rest := dirLoop excl dirRel em es
        (r.1 ++ rest.1, r.2.1 ++ rest.2.1, rest.2.2)
      else (r.1, r.2.1, some er)
    | none =>
      let rest := dirLoop excl dirRel em es
      (r.1 ++ rest.1, r.2.1 ++ rest.2.1, rest.2.2)

/-- One dequeued item of `dir_worker` (lines 72-84): `scan` is the outcome
of `os.scandir(d)`; a failing listing is caught by the outer
`except (PermissionError, OSError): pass` (lines 83-84). -/
def dirWorkerDir (excl : List String) (dirRel : String)
    (em : String → Except Err Unit) (scan : Except Err (List Ent1)) :
    List String × List String × Option Err :=
  match scan with
  | .error er => if caughtErr er then ([], [], none) else ([], [], some er)
  | .ok es => dirLoop excl dirRel em es

/-- The per-entry body of `file_worker` (lines 135-154) for the directory
record `dirRel`: classify, build `rel_file`, choose the shard, write
(outcome `wr`), bump `files_emitted`, flush every 2^20 files (outcome
`fl`).  State is `(files_emitted, rr_counter)`.  Returns (records written
with their shard, new state, exception raised, if any).  Mutations made
before a raise persist, as in Python. -/
def fileEntryStep (mode : Mode) (nOuts : Nat) (dirRel : String)
    (wr : Nat → String → Except Err Unit) (fl : Except Err Unit)
    (st : Nat × Nat) (e : Ent2) :
    List (Nat × String) × (Nat × Nat) × Option Err :=
  match e.isFile with
  | .error er => ([], st, some er)
  | .ok false => ([], st, none)
  | .ok true =>
    let rel := relFile dirRel e.name
    let pick := chooseOutStep mode nOuts st.2 rel dirRel
    match wr pick.1 rel with
    | .error er => ([], (st.1, pick.2), some er)
    | .ok _ =>
      let cnt := st.1 + 1
      match (if cnt % 2 ^ 20 = 0 then fl else Except.ok ()) with
      | .error er => ([(pick.1, rel)], (cnt, pick.2), some er)
      | .ok _ => ([(pick.1, rel)], (cnt, pick.2), none)

/-- The entry loop of `file_worker` (lines 134-154) with the per-entry
`except (PermissionError, OSError): continue`. -/
def fileLoop (mode : Mode) (nOuts : Nat) (dirRel : String)
    (wr : Nat → String → Except Err Unit) (fl : Except Err Unit) :
    List Ent2 → Nat × Nat → List (Nat × String) × (Nat × Nat) × Option Err
  | [], st => ([], st, none)
  | e :: es, st =>
    let r := fileEntryStep mode nOuts dirRel wr fl st e
    match r.2.2 with
    | some er =>
      if caughtErr er then
        let rest := fileLoop mode nOuts dirRel wr fl es r.2.1
        (r.1 ++ rest.1, rest.2)
      else (r.1, r.2.1, some er)
    | none =>
      let rest := fileLoop mode nOuts dirRel wr fl es r.2.1
      (r.1 ++ rest.1, rest.2)

/-- One dequeued item of `file_worker` (lines 129-156): `scan` is the
outcome of `os.scandir(dir_abs)`; a failing listing is caught by the outer
`except (PermissionError, OSError): pass` (lines 155-156). -/
def fileWorkerDir (mode : Mode) (nOuts : Nat) (dirRel : String)
    (wr : Nat → String → Except Err Unit) (fl : Except Err Unit)
    (st : Nat × Nat) (scan : Except Err (List Ent2)) :
    List (Nat × String) × (Nat × Nat) × Option Err :=
  match scan with
  | .error er => if caughtErr er then ([], st, none) else ([], st, some er)
  | .ok es => fileLoop mode nOuts dirRel wr fl es st

/-! ## Sequential shard assignment (C2, C3)

A phase-2 run, projected onto shard routing: the records `(dir_rel, name)`
in the order the workers happen to process them, threaded through
`choose_out`'s shared round-robin counter.  Two runs of the crawl on the
same tree process the same records in possibly different orders. -/

/-- Process records in order, assigning each file its shard index. -/
def phase2Run (mode : Mode) (nOuts : Nat) :
    List (String × String) → Nat → List (Nat × String)
  | [], _ => []
  | r :: rs, rr =>
    let f := relFile r.1 r.2
    let pick := chooseOutStep mode nOuts rr f r.1
    (pick.1, f) :: phase2Run mode nOuts rs pick.2

/-- Contents of shard `i` after a run processing `recs` (counter starts
at 0, line 103). -/
def shardList (mode : Mode) (nOuts : Nat) (recs : List (String × String)) (i : Nat) :
    List String :=
  ((phase2Run mode nOuts recs 0).filter fun p => p.1 = i).map fun p => p.2

/-! ## Output opening (C9)

`open_outputs` (lines 8-16) opens every shard (or the single manifest)
with mode `"ab"`, and line 52 opens the ledger file with `"ab"`: append
mode, which preserves existing bytes and writes after them. -/

inductive OpenMode where
  | append
  | truncate
deriving DecidableEq

/-- `f"shard_{i:05d}.nul"` (line 11). -/
def shardFile (i : Nat) : String :=
  "shard_" ++ String.mk (List.replicate (5 - (toString i).length) '0') ++ toString i ++ ".nul"

/-- `open_outputs(out_manifest, outdir, shards)` (lines 8-16) as the list
of (path, open mode) it opens: shard files when `shards > 0`, else the
single manifest; every open uses `"ab"`. -/
def open_outputs (out_manifest outdir : String) (shards : Nat) :
    List (String × OpenMode) :=
  if shards > 0 then
    (List.range shards).map fun i => (outdir ++ "/" ++ shardFile i, OpenMode.append)
  else [(out_manifest, OpenMode.append)]

/-- `open(args.dirs_out, "ab", ...)` (line 52). -/
def dirsFileMode : OpenMode := OpenMode.append

/-- Final bytes of a file with prior contents `prior` after a run writes
`written` through a handle opened with the given mode. -/
def writeRun (mode : OpenMode) (prior written : List Nat) : List Nat :=
  match mode with
  | .append => prior ++ written
  | .truncate => written

/-! ## The phase barrier of `main` (C8)

`main` is straight-line: seed `dir_q` (lines 63-64), start phase-1 workers
and `dir_q.join()` (lines 89-93), flush and close the ledger (line 94),
open the outputs (line 101), start phase-2 workers and stream the ledger
back (lines 160-180).  The machine below abstracts this: in phase `p1`,
workers take queued directories (`dir_q.get`) and finish them
(`task_done`, possibly enqueuing children and writing ledger records);
`dir_q.join()` returns — allowing the close — only when the queue is empty
and no item is in flight.  The event trace records ledger writes, the
ledger close, the output opening, and phase-2 reads/writes. -/

inductive MPhase where
  | p1
  | closed
  | p2
deriving DecidableEq

/-- Observable events of a run of `main`. -/
inductive Ev where
  | ledgerWrite (s : String)
  | ledgerClose
  | openOuts
  | ledgerRead (s : String)
  | shardWrite (i : Nat) (s : String)

/-- Phase-ordering rank of an event. -/
def evRank : Ev → Nat
  | .ledgerWrite _ => 0
  | .ledgerClose => 1
  | .openOuts => 2
  | .ledgerRead _ => 3
  | .shardWrite _ _ => 3

/-- Largest event rank that can already appear in the trace at a given
machine phase. -/
def phaseCap : MPhase → Nat
  | .p1 => 0
  | .closed => 1
  | .p2 => 3

/-- Machine state: current phase, queued phase-1 items, in-flight phase-1
items (dequeued, `task_done` not yet called). -/
structure MState where
  phase : MPhase
  queue : Nat
  busy : Nat

/-- One step of `main`'s execution; the step's emitted events are the
label.  `close` is guarded exactly by `dir_q.join()`'s condition. -/
inductive MStep : MState → List Ev → MState → Prop where
  | take (s : MState) (h : s.phase = .p1) (hq : 0 < s.queue) :
      MStep s [] ⟨.p1, s.queue - 1, s.busy + 1⟩
  | finish (s : MState) (ws : List String) (k : Nat) (h : s.phase = .p1)
      (hb : 0 < s.busy) :
      MStep s (ws.map Ev.ledgerWrite) ⟨.p1, s.queue + k, s.busy - 1⟩
  | close (s : MState) (h : s.phase = .p1) (hq : s.queue = 0) (hb : s.busy = 0) :
      MStep s [Ev.ledgerClose] ⟨.closed, 0, 0⟩
  | openO (s : MState) (h : s.phase = .closed) :
      MStep s [Ev.openOuts] ⟨.p2, 0, 0⟩
  | read (s : MState) (d : String) (h : s.phase = .p2) :
      MStep s [Ev.ledgerRead d] s
  | emitFile (s : MState) (i : Nat) (f : String) (h : s.phase = .p2) :
      MStep s [Ev.shardWrite i f] s

/-- Reachable (state, trace) pairs: the run starts in phase 1 with the
root ledger record already written and the root queued (lines 63-64). -/
inductive MReach : MState → List Ev → Prop where
  | init : MReach ⟨.p1, 1, 0⟩ [Ev.ledgerWrite "."]
  | next {s : MState} {tr : List Ev} {evs : List Ev} {t : MState}
      (hr : MReach s tr) (hs : MStep s evs t) : MReach t (tr ++ evs)


/-! ## Lemmas: UTF-8 round trip -/

/-- Decoding inverts encoding one code point at a time (surrogates
included, matching `surrogatepass`). -/
theorem utf8Dec_char (n : Nat) (rest : List Nat) (h : n < 0x110000) :
    utf8DecA 0 0 (utf8Char n ++ rest) = n :: utf8DecA 0 0 rest := by
  by_cases h1 : n < 0x80
  · simp [utf8Char, utf8DecA, h1]
  · by_cases h2 : n < 0x800
    · have hb1 : ¬ (0xC0 + n / 64 < 0x80) := by omega
      have hb2 : 0xC0 + n / 64 < 0xE0 := by omega
      simp only [utf8Char, h1, h2, if_false, if_true, ite_false, ite_true,
        List.cons_append, List.nil_append, utf8DecA, hb1, hb2, List.cons.injEq]
      exact ⟨by omega, trivial⟩
    · by_cases h3 : n < 0x10000
      · have hb1 : ¬ (0xE0 + n / 4096 < 0x80) := by omega
        have hb2 : ¬ (0xE0 + n / 4096 < 0xE0) := by omega
        have hb3 : 0xE0 + n / 4096 < 0xF0 := by omega
        simp only [utf8Char, h1, h2, h3, if_false, if_true, ite_false, ite_true,
          List.cons_append, List.nil_append, utf8DecA, hb1, hb2, hb3, List.cons.injEq]
        exact ⟨by omega, trivial⟩
      · have hb1 : ¬ (0xF0 + n / 262144 < 0x80) := by omega
        have hb2 : ¬ (0xF0 + n / 262144 < 0xE0) := by omega
        have hb3 : ¬ (0xF0 + n / 262144 < 0xF0) := by omega
        simp only [utf8Char, h1, h2, h3, if_false, if_true, ite_false, ite_true,
          List.cons_append, List.nil_append, utf8DecA, hb1, hb2, hb3, List.cons.injEq]
        exact ⟨by omega, trivial⟩

/-- Decoding inverts encoding for a list of valid code points. -/
theorem utf8Dec_enc (l : List Nat) (rest : List Nat) (h : ∀ n ∈ l, n < 0x110000) :
    utf8DecA 0 0 (utf8Enc l ++ rest) = l ++ utf8DecA 0 0 rest := by
  induction l with
  | nil => simp [utf8Enc]
  | cons n l ih =>
    have hn : n < 0x110000 := h n (by simp)
    have hl : ∀ m ∈ l, m < 0x110000 := fun m hm => h m (by simp [hm])
    simp only [utf8Enc, List.flatMap_cons, List.append_assoc]
    rw [utf8Dec_char n _ hn]
    simpa [utf8Enc] using congrArg (n :: ·) (ih hl)

/-- Every Lean `Char` is a valid code point. -/
theorem char_toNat_lt (c : Char) : c.toNat < 0x110000 := by
  have h := c.valid
  rcases h with h | h
  · exact Nat.lt_trans h (by norm_num)
  · exact h.2

/-- `bytes.decode` inverts `str.encode` (lines 57, 144 vs 178). -/
theorem strDecode_strBytes (s : String) : strDecode (strBytes s) = s := by
  have h : utf8DecA 0 0 (utf8Enc (s.data.map Char.toNat) ++ []) =
      s.data.map Char.toNat ++ utf8DecA 0 0 [] := by
    refine utf8Dec_enc _ _ ?_
    intro n hn
    rcases List.mem_map.mp hn with ⟨c, _, rfl⟩
    exact char_toNat_lt c
  simp only [List.append_nil, utf8DecA] at h
  simp only [strDecode, strBytes, utf8Dec, h, List.append_nil, List.map_map]
  have h2 : s.data.map (Char.ofNat ∘ Char.toNat) = s.data := by
    simp [Function.comp_def]
  rw [h2]

/-- A string with no NUL character encodes with no NUL byte. -/
theorem strBytes_no_nul (s : String) (h : ∀ c ∈ s.data, c.toNat ≠ 0) :
    0 ∉ strBytes s := by
  intro hmem
  rcases List.mem_flatMap.mp hmem with ⟨n, hn, hb⟩
  rcases List.mem_map.mp hn with ⟨c, hc, rfl⟩
  have hne : c.toNat ≠ 0 := h c hc
  revert hb
  unfold utf8Char
  split
  · simp only [List.mem_singleton]
    omega
  · split
    · simp only [List.mem_cons, List.not_mem_nil, or_false]
      omega
    · split
      · simp only [List.mem_cons, List.not_mem_nil, or_false]
        omega
      · simp only [List.mem_cons, List.not_mem_nil, or_false]
        omega

/-! ## Lemmas: NUL-delimited records -/

/-- A NUL-free buffer contains no complete record. -/
theorem extractRecords_no_nul (bs : List Nat) (h : 0 ∉ bs) :
    extractRecords bs = ([], bs) := by
  induction bs with
  | nil => rfl
  | cons b bs ih =>
    have hb : ¬ b = 0 := fun he => h (he ▸ List.mem_cons_self b bs)
    have hbs : 0 ∉ bs := fun hm => h (List.mem_cons_of_mem b hm)
    simp [extractRecords, hb, ih hbs]

/-- The remainder after extraction is NUL-free. -/
theorem extractRecords_rest_no_nul (bs : List Nat) : 0 ∉ (extractRecords bs).2 := by
  induction bs with
  | nil => simp [extractRecords]
  | cons b bs ih =>
    by_cases hb : b = 0
    · simpa [extractRecords, hb] using ih
    · rcases he : extractRecords bs with ⟨rs, rest⟩
      rw [he] at ih
      cases rs with
      | nil =>
        simp only [extractRecords, hb, if_false, ite_false, he]
        simp only [List.mem_cons, not_or]
        exact ⟨fun h0 => hb h0.symm, ih⟩
      | cons r rs => simpa [extractRecords, hb, he] using ih

/-- Extracting a NUL-terminated record: the record comes off the front. -/
theorem extractRecords_record (r rest : List Nat) (h : 0 ∉ r) :
    extractRecords (r ++ 0 :: rest) =
      (r :: (extractRecords rest).1, (extractRecords rest).2) := by
  induction r with
  | nil => simp [extractRecords]
  | cons b r ih =>
    have hb : ¬ b = 0 := fun he => h (he ▸ List.mem_cons_self b r)
    have hr : 0 ∉ r := fun hm => h (List.mem_cons_of_mem b hm)
    simp [extractRecords, hb, ih hr]

/-- Extracting the encoding of a record sequence recovers the records. -/
theorem extractRecords_flat (rs : List (List Nat)) (h : ∀ r ∈ rs, 0 ∉ r) :
    extractRecords (rs.flatMap fun r => r ++ [0]) = (rs, []) := by
  induction rs with
  | nil => rfl
  | cons r rs ih =>
    have hr : 0 ∉ r := h r (by simp)
    have hrs : ∀ q ∈ rs, 0 ∉ q := fun q hq => h q (by simp [hq])
    have : (r ++ [0]) ++ rs.flatMap (fun q => q ++ [0]) =
        r ++ 0 :: rs.flatMap (fun q => q ++ [0]) := by simp
    simp only [List.flatMap_cons, this, extractRecords_record _ _ hr, ih hrs]

/-- Splitting distributes over buffer concatenation: the records of
`a ++ b` are the records of `a` followed by the records of `a`'s remainder
prepended to `b`. -/
theorem extractRecords_append (a b : List Nat) :
    extractRecords (a ++ b) =
      ((extractRecords a).1 ++ (extractRecords ((extractRecords a).2 ++ b)).1,
       (extractRecords ((extractRecords a).2 ++ b)).2) := by
  induction a with
  | nil => simp [extractRecords]
  | cons x a ih =>
    by_cases hx : x = 0
    · subst hx
      simp [extractRecords, ih]
    · rcases ha : extractRecords a with ⟨ra1, ra2⟩
      rw [ha] at ih
      cases ra1 with
      | nil =>
        rcases hb2 : extractRecords (ra2 ++ b) with ⟨rb1, rb2⟩
        rw [hb2] at ih
        simp only [List.nil_append] at ih
        cases rb1 with
        | nil =>
          simp [extractRecords, hx, ha, ih, hb2, List.cons_append]
        | cons q qs =>
          simp [extractRecords, hx, ha, ih, hb2, List.cons_append]
      | cons r rs =>
        simp [extractRecords, hx, ha, ih, List.cons_append]

/-- The chunked stream loop equals one-shot extraction of the whole byte
stream: chunk boundaries are invisible. -/
theorem streamFold (chunks : List (List Nat)) :
    ∀ (acc : List String) (buf : List Nat), 0 ∉ buf →
      (chunks.foldl streamStep (acc, buf)).1 =
        acc ++ (extractRecords (buf ++ chunks.flatten)).1.map orDot := by
  induction chunks with
  | nil =>
    intro acc buf h
    simp [extractRecords_no_nul buf h]
  | cons c cs ih =>
    intro acc buf h
    have step : streamStep (acc, buf) c =
        (acc ++ (extractRecords (buf ++ c)).1.map orDot, (extractRecords (buf ++ c)).2) := rfl
    have hrest : 0 ∉ (extractRecords (buf ++ c)).2 := extractRecords_rest_no_nul _
    simp only [List.foldl_cons, step, ih _ _ hrest]
    rw [List.flatten_cons, show buf ++ (c ++ cs.flatten) = (buf ++ c) ++ cs.flatten by simp,
      extractRecords_append (buf ++ c) cs.flatten]
    simp [List.map_append]

/-- `streamDecode` is chunking-independent. -/
theorem streamDecode_eq_extract (chunks : List (List Nat)) :
    streamDecode chunks = (extractRecords chunks.flatten).1.map orDot := by
  simpa using streamFold chunks [] [] (by simp)

/-- C6: writing a sequence of NUL-free relative paths through the
NUL-delimited encoding (`emit_dir` / shard writes: UTF-8 bytes plus one
`0x00` each) produces a byte stream in which no path contributes a NUL
byte, and splitting that stream on NUL and decoding recovers exactly the
original sequence of paths in write order, with no leftover bytes. -/
theorem C6_nul_roundtrip (ps : List String)
    (h : ∀ s ∈ ps, ∀ c ∈ s.data, c.toNat ≠ 0) :
    (∀ s ∈ ps, 0 ∉ strBytes s) ∧
      (extractRecords (encodeSeq ps)).1.map strDecode = ps ∧
      (extractRecords (encodeSeq ps)).2 = [] := by
  have hb : ∀ s ∈ ps, 0 ∉ strBytes s := fun s hs => strBytes_no_nul s (h s hs)
  have hx : extractRecords (encodeSeq ps) = (ps.map strBytes, []) := by
    have : encodeSeq ps = (ps.map strBytes).flatMap fun r => r ++ [0] := by
      simp [encodeSeq, List.flatMap_map]
    rw [this]
    refine extractRecords_flat _ ?_
    intro r hr
    rcases List.mem_map.mp hr with ⟨s, hs, rfl⟩
    exact hb s hs
  refine ⟨hb, ?_, by rw [hx]⟩
  rw [hx]
  simp only [List.map_map]
  have : ps.map (strDecode ∘ strBytes) = ps.map id := by
    refine List.map_congr_left ?_
    intro s _
    exact strDecode_strBytes s
  simpa using this

/-- Witness for C6 at a concrete path sequence. -/
theorem C6_nul_roundtrip_witness :
    (∀ s ∈ ["a", "b/c"], ∀ c ∈ s.data, c.toNat ≠ 0) ∧
      ((∀ s ∈ ["a", "b/c"], 0 ∉ strBytes s) ∧
        (extractRecords (encodeSeq ["a", "b/c"])).1.map strDecode = ["a", "b/c"] ∧
        (extractRecords (encodeSeq ["a", "b/c"])).2 = []) :=
  ⟨by decide, C6_nul_roundtrip ["a", "b/c"] (by decide)⟩

/-- C10: when phase 2 streams the ledger back (in chunks of any size), a
zero-length record is mapped to the root sentinel `"."` — the decoded
sequence is position-for-position the `or "."` image of the raw record
sequence, so an empty record at index `i` is enqueued as `"."` at index
`i`, not skipped and not an error. -/
theorem C10_empty_record_is_root (rs : List (List Nat)) (chunks : List (List Nat))
    (hnul : ∀ r ∈ rs, 0 ∉ r)
    (hch : chunks.flatten = rs.flatMap fun r => r ++ [0]) :
    streamDecode chunks = rs.map orDot ∧
      ∀ i : Nat, rs[i]? = some [] → (streamDecode chunks)[i]? = some "." := by
  have h1 : streamDecode chunks = rs.map orDot := by
    rw [streamDecode_eq_extract, hch, extractRecords_flat rs hnul]
  refine ⟨h1, ?_⟩
  intro i hi
  rw [h1, List.getElem?_map, hi]
  rfl

/-- Witness for C10: the stream `"a" NUL NUL "b" NUL`, read in two chunks
that split mid-record, decodes to `["a", ".", "b"]`, the empty record
(two consecutive NULs) appearing as `"."` at its position. -/
theorem C10_empty_record_is_root_witness :
    (∀ r ∈ [[97], ([] : List Nat), [98]], 0 ∉ r) ∧
      ([[97, 0], [0, 98, 0]] : List (List Nat)).flatten =
        ([[97], [], [98]] : List (List Nat)).flatMap (fun r => r ++ [0]) ∧
      (streamDecode [[97, 0], [0, 98, 0]] = [["a", ".", "b"]].flatten ∧
        ∀ i : Nat, ([[97], ([] : List Nat), [98]] : List (List Nat))[i]? = some [] →
          (streamDecode [[97, 0], [0, 98, 0]])[i]? = some ".") := by
  refine ⟨by decide, by decide, ?_⟩
  have h := C10_empty_record_is_root [[97], [], [98]] [[97, 0], [0, 98, 0]]
    (by decide) (by decide)
  refine ⟨?_, h.2⟩
  rw [h.1]
  decide

/-! ## Lemmas: shard routing -/

/-- Under `bydir` and `hash` the router neither reads nor changes the
round-robin counter: the choice is a pure function of the routing key. -/
theorem chooseOutStep_pure (mode : Mode) (nOuts : Nat)
    (hm : mode = Mode.bydir ∨ mode = Mode.hash) :
    ∀ (rr : Nat) (f d : String),
      chooseOutStep mode nOuts rr f d = ((chooseOutStep mode nOuts 0 f d).1, rr) := by
  rcases hm with rfl | rfl <;> intro rr f d <;> simp only [chooseOutStep] <;> split <;> rfl

/-- Under `bydir` and `hash` a run is the pointwise image of its records:
each file's shard depends only on its own routing key. -/
theorem phase2Run_eq_map (mode : Mode) (nOuts : Nat)
    (hm : mode = Mode.bydir ∨ mode = Mode.hash) :
    ∀ (recs : List (String × String)) (rr : Nat),
      phase2Run mode nOuts recs rr =
        recs.map fun r =>
          ((chooseOutStep mode nOuts 0 (relFile r.1 r.2) r.1).1, relFile r.1 r.2) := by
  intro recs
  induction recs with
  | nil => intro rr; rfl
  | cons r rs ih =>
    intro rr
    have hps := chooseOutStep_pure mode nOuts hm rr (relFile r.1 r.2) r.1
    simp only [phase2Run, hps, List.map_cons, ih]

/-- C2: for shard-selection modes `bydir` and `hash`, two crawls of the
same unchanged tree — which process the same multiset of
(directory, file name) records, in whatever order their workers happen to
interleave — put exactly the same set of relative file paths into every
shard index `i`. -/
theorem C2_deterministic_partition (mode : Mode) (nOuts : Nat)
    (recs1 recs2 : List (String × String))
    (hm : mode = Mode.bydir ∨ mode = Mode.hash) (hp : recs1.Perm recs2) :
    ∀ (i : Nat) (p : String),
      p ∈ shardList mode nOuts recs1 i ↔ p ∈ shardList mode nOuts recs2 i := by
  intro i p
  have hperm : (phase2Run mode nOuts recs1 0).Perm (phase2Run mode nOuts recs2 0) := by
    rw [phase2Run_eq_map mode nOuts hm, phase2Run_eq_map mode nOuts hm]
    exact hp.map _
  exact ((hperm.filter _).map _).mem_iff

/-- Witness for C2: two run orders of the same two records under `bydir`
with 3 shards. -/
theorem C2_deterministic_partition_witness :
    (Mode.bydir = Mode.bydir ∨ Mode.bydir = Mode.hash) ∧
      ([("d", "p.txt"), ("e", "q.txt")] : List (String × String)).Perm
        [("e", "q.txt"), ("d", "p.txt")] ∧
      ∀ (i : Nat) (p : String),
        p ∈ shardList Mode.bydir 3 [("d", "p.txt"), ("e", "q.txt")] i ↔
          p ∈ shardList Mode.bydir 3 [("e", "q.txt"), ("d", "p.txt")] i :=
  ⟨Or.inl rfl, List.Perm.swap _ _ _,
    C2_deterministic_partition Mode.bydir 3 _ _ (Or.inl rfl) (List.Perm.swap _ _ _)⟩

/-- C3: with `N ≥ 2` shards, `bydir` routes a file to the 4-byte BLAKE2b
digest of its owning directory's relative path read as a little-endian
unsigned integer modulo `N` (and `hash` applies the same construction to
the file's full relative path); consequently any two files of the same
directory get the same index under `bydir`, and the index is a valid shard
index. -/
theorem C3_bydir_digest_mod (nOuts rr1 rr2 : Nat) (d n1 n2 f : String)
    (h : 2 ≤ nOuts) :
    (chooseOutStep Mode.bydir nOuts rr1 (relFile d n1) d).1 =
        leWord (blake2b 4 (strBytes d)) % nOuts ∧
      (chooseOutStep Mode.hash nOuts rr1 f d).1 =
        leWord (blake2b 4 (strBytes f)) % nOuts ∧
      (chooseOutStep Mode.bydir nOuts rr1 (relFile d n1) d).1 =
        (chooseOutStep Mode.bydir nOuts rr2 (relFile d n2) d).1 ∧
      (chooseOutStep Mode.bydir nOuts rr1 (relFile d n1) d).1 < nOuts := by
  have hne : ¬ nOuts = 1 := by omega
  refine ⟨by simp [chooseOutStep, hne], by simp [chooseOutStep, hne],
    by simp [chooseOutStep, hne], ?_⟩
  simp only [chooseOutStep, hne, if_false, ite_false]
  exact Nat.mod_lt _ (by omega)

/-- Witness for C3: the spec's concrete scenario — `N = 4`, mode `bydir`,
files `d/p.txt` and `d/q.txt` sharing directory `d` land in one shard. -/
theorem C3_bydir_digest_mod_witness :
    2 ≤ 4 ∧
      ((chooseOutStep Mode.bydir 4 0 (relFile "d" "p.txt") "d").1 =
          leWord (blake2b 4 (strBytes "d")) % 4 ∧
        (chooseOutStep Mode.hash 4 0 "x" "d").1 =
          leWord (blake2b 4 (strBytes "x")) % 4 ∧
        (chooseOutStep Mode.bydir 4 0 (relFile "d" "p.txt") "d").1 =
          (chooseOutStep Mode.bydir 4 7 (relFile "d" "q.txt") "d").1 ∧
        (chooseOutStep Mode.bydir 4 0 (relFile "d" "p.txt") "d").1 < 4) :=
  ⟨by decide, C3_bydir_digest_mod 4 0 7 "d" "p.txt" "q.txt" "x" (by decide)⟩

/-! ## Lemmas: worker error handling -/

/-- `except (PermissionError, OSError)` catches every exception the
traversal's fallible operations raise (`IOError` is an alias of `OSError`
in Python 3, so output-sink write failures are included). -/
theorem caughtErr_true (er : Err) : caughtErr er = true := by
  cases er <;> rfl

/-- `dir_worker`'s entry loop never lets an exception escape. -/
theorem dirLoop_no_uncaught (excl : List String) (dirRel : String)
    (em : String → Except Err Unit) :
    ∀ es : List Ent1, (dirLoop excl dirRel em es).2.2 = none := by
  intro es
  induction es with
  | nil => rfl
  | cons e es ih =>
    cases h : (dirEntryStep excl dirRel em e).2.2 <;>
      simp [dirLoop, h, caughtErr_true, ih]

/-- `file_worker`'s entry loop never lets an exception escape. -/
theorem fileLoop_no_uncaught (mode : Mode) (nOuts : Nat) (dirRel : String)
    (wr : Nat → String → Except Err Unit) (fl : Except Err Unit) :
    ∀ (es : List Ent2) (st : Nat × Nat),
      (fileLoop mode nOuts dirRel wr fl es st).2.2 = none := by
  intro es
  induction es with
  | nil => intro st; rfl
  | cons e es ih =>
    intro st
    cases h : (fileEntryStep mode nOuts dirRel wr fl st e).2.2 <;>
      simp [fileLoop, h, caughtErr_true, ih]

/-- An entry whose classification raises contributes nothing. -/
theorem dirEntryStep_error (excl : List String) (dirRel : String)
    (em : String → Except Err Unit) (e : Ent1) (er : Err)
    (h : e.isDir = Except.error er) :
    dirEntryStep excl dirRel em e = ([], [], some er) := by
  simp [dirEntryStep, h]

/-- An entry whose classification raises contributes nothing and leaves
the worker state unchanged. -/
theorem fileEntryStep_error (mode : Mode) (nOuts : Nat) (dirRel : String)
    (wr : Nat → String → Except Err Unit) (fl : Except Err Unit)
    (st : Nat × Nat) (e : Ent2) (er : Err) (h : e.isFile = Except.error er) :
    fileEntryStep mode nOuts dirRel wr fl st e = ([], st, some er) := by
  simp [fileEntryStep, h]

/-- C7: a failing `os.scandir` or a failing entry classification in either
phase is recovered locally.  (i) No exception ever propagates out of a
worker's handling of one directory; (ii) a directory whose listing raises
is abandoned with no records emitted and no children enqueued; (iii) an
entry whose classification raises is skipped while every other entry of
the same directory is still processed, with identical output and state. -/
theorem C7_per_entry_recovery (excl : List String) (dirRel : String)
    (em : String → Except Err Unit) (scan1 : Except Err (List Ent1))
    (mode : Mode) (nOuts : Nat) (wr : Nat → String → Except Err Unit)
    (fl : Except Err Unit) (st : Nat × Nat) (scan2 : Except Err (List Ent2))
    (er : Err) :
    ((dirWorkerDir excl dirRel em scan1).2.2 = none ∧
      (fileWorkerDir mode nOuts dirRel wr fl st scan2).2.2 = none) ∧
      (dirWorkerDir excl dirRel em (Except.error er) = ([], [], none) ∧
        fileWorkerDir mode nOuts dirRel wr fl st (Except.error er) = ([], st, none)) ∧
      (∀ (es1 es2 : List Ent1) (e : Ent1), e.isDir = Except.error er →
        dirLoop excl dirRel em (es1 ++ e :: es2) = dirLoop excl dirRel em (es1 ++ es2)) ∧
      (∀ (fs1 fs2 : List Ent2) (f : Ent2) (stx : Nat × Nat),
        f.isFile = Except.error er →
        fileLoop mode nOuts dirRel wr fl (fs1 ++ f :: fs2) stx =
          fileLoop mode nOuts dirRel wr fl (fs1 ++ fs2) stx) := by
  refine ⟨⟨?_, ?_⟩, ⟨?_, ?_⟩, ?_, ?_⟩
  · cases scan1 with
    | error e => simp [dirWorkerDir, caughtErr_true]
    | ok es => exact dirLoop_no_uncaught excl dirRel em es
  · cases scan2 with
    | error e => simp [fileWorkerDir, caughtErr_true]
    | ok es => exact fileLoop_no_uncaught mode nOuts dirRel wr fl es st
  · simp [dirWorkerDir, caughtErr_true]
  · simp [fileWorkerDir, caughtErr_true]
  · intro es1 es2 e he
    induction es1 with
    | nil =>
      simp [dirLoop, dirEntryStep_error excl dirRel em e er he, caughtErr_true]
    | cons a es1 ih =>
      cases h : (dirEntryStep excl dirRel em a).2.2 <;>
        simp [List.cons_append, dirLoop, h, caughtErr_true, ih]
  · intro fs1 fs2 f stx hf
    induction fs1 generalizing stx with
    | nil =>
      simp [fileLoop, fileEntryStep_error mode nOuts dirRel wr fl stx f er hf,
        caughtErr_true]
    | cons a fs1 ih =>
      cases h : (fileEntryStep mode nOuts dirRel wr fl stx a).2.2 <;>
        simp [List.cons_append, fileLoop, h, caughtErr_true, ih]

/-- Witness for C7: a concrete bad entry amid good ones, and a failing
listing, in both phases. -/
theorem C7_per_entry_recovery_witness :
    ((⟨"x", Except.error Err.perm⟩ : Ent1).isDir = Except.error Err.perm) ∧
      (dirLoop [] "." (fun _ => Except.ok ())
          ([⟨"a", Except.ok true⟩] ++ (⟨"x", Except.error Err.perm⟩ : Ent1) ::
            [⟨"b", Except.ok true⟩]) =
        dirLoop [] "." (fun _ => Except.ok ())
          ([⟨"a", Except.ok true⟩] ++ [⟨"b", Except.ok true⟩])) ∧
      dirWorkerDir [] "." (fun _ => Except.ok ()) (Except.error Err.perm) =
        ([], [], none) ∧
      fileWorkerDir Mode.bydir 1 "d" (fun _ _ => Except.ok ()) (Except.ok ())
        (0, 0) (Except.error Err.os) = ([], (0, 0), none) := by
  have h := C7_per_entry_recovery [] "." (fun _ => Except.ok ())
    (Except.ok []) Mode.bydir 1 (fun _ _ => Except.ok ()) (Except.ok ())
    (0, 0) (Except.ok []) Err.perm
  refine ⟨rfl, h.2.2.1 [⟨"a", Except.ok true⟩] [⟨"b", Except.ok true⟩] _ rfl,
    h.2.1.1, ?_⟩
  have h2 := C7_per_entry_recovery [] "." (fun _ => Except.ok ())
    (Except.ok []) Mode.bydir 1 (fun _ _ => Except.ok ()) (Except.ok ())
    (0, 0) (Except.ok []) Err.os
  exact h2.2.1.2

/-- C1 (divergence witness): an `OSError` raised by a write to an output
sink *during traversal* is caught by the per-entry
`except (PermissionError, OSError)` handler and silently recovered — the
worker returns normally with no propagated exception — both for the
Directory Ledger write in `dir_worker` (line 79 sits inside the `try` of
lines 75-82) and for the shard/manifest write in `file_worker` (line 146
sits inside the `try` of lines 136-154).  Only the initial root record
(line 63) and the final flush/close (lines 94, 185-187) can propagate. -/
theorem C1_write_error_swallowed :
    dirWorkerDir [] "." (fun _ => Except.error Err.os)
        (Except.ok [⟨"a", Except.ok true⟩]) = ([], [], none) ∧
      fileWorkerDir Mode.bydir 1 "d" (fun _ _ => Except.error Err.os)
        (Except.ok ()) (0, 0) (Except.ok [⟨"p.txt", Except.ok true⟩]) =
        ([], (0, 0), none) := by
  constructor <;> rfl

/-! ## Lemmas: the phase barrier -/

/-- C8: along every execution of `main`'s machine, events appear in
nondecreasing rank order — every Directory Ledger write precedes the
ledger flush/close, which precedes the opening of the shard/manifest
outputs, which precedes every ledger read-back and every shard write; and
once the machine has left phase 1 (which requires `dir_q.join()`:
queue empty and no in-flight item) the phase-1 queue stays drained. -/
theorem C8_phase_barrier (s : MState) (tr : List Ev) (h : MReach s tr) :
    tr.Pairwise (fun a b => evRank a ≤ evRank b) ∧
      (∀ e ∈ tr, evRank e ≤ phaseCap s.phase) ∧
      (s.phase ≠ MPhase.p1 → s.queue = 0 ∧ s.busy = 0) := by
  induction h with
  | init =>
    refine ⟨List.pairwise_singleton _ _, ?_, by simp⟩
    intro e he
    rcases List.mem_singleton.mp he with rfl
    simp [evRank, phaseCap]
  | @next s0 tr0 evs t hr hs ih =>
    rcases ih with ⟨hpw, hcap, hdrain⟩
    cases hs with
    | take h hq =>
      refine ⟨by simpa using hpw, ?_, by simp⟩
      intro e he
      rw [List.append_nil] at he
      have := hcap e he
      rw [h] at this
      simpa [phaseCap] using this
    | finish ws k h hb =>
      have hcap0 : ∀ e ∈ tr0, evRank e ≤ 0 := by
        intro e he
        have := hcap e he
        rw [h] at this
        simpa [phaseCap] using this
      refine ⟨?_, ?_, by simp⟩
      · rw [List.pairwise_append]
        refine ⟨hpw, ?_, ?_⟩
        · exact (List.pairwise_map).mpr (List.pairwise_of_forall fun a b => by
            simp [evRank])
        · intro a ha b hb2
          rcases List.mem_map.mp hb2 with ⟨w, _, rfl⟩
          simpa [evRank] using hcap0 a ha
      · intro e he
        rcases List.mem_append.mp he with he | he
        · simpa [phaseCap] using hcap0 e he
        · rcases List.mem_map.mp he with ⟨w, _, rfl⟩
          simp [evRank, phaseCap]
    | close h hq hb =>
      have hcap0 : ∀ e ∈ tr0, evRank e ≤ 0 := by
        intro e he
        have := hcap e he
        rw [h] at this
        simpa [phaseCap] using this
      refine ⟨?_, ?_, by simp⟩
      · rw [List.pairwise_append]
        refine ⟨hpw, List.pairwise_singleton _ _, ?_⟩
        intro a ha b hb2
        rcases List.mem_singleton.mp hb2 with rfl
        have := hcap0 a ha
        exact Nat.le_trans this (by decide)
      · intro e he
        rcases List.mem_append.mp he with he | he
        · have := hcap0 e he
          simp only [phaseCap]
          omega
        · rcases List.mem_singleton.mp he with rfl
          simp [evRank, phaseCap]
    | openO h =>
      have hcap1 : ∀ e ∈ tr0, evRank e ≤ 1 := by
        intro e he
        have := hcap e he
        rw [h] at this
        simpa [phaseCap] using this
      refine ⟨?_, ?_, by simp⟩
      · rw [List.pairwise_append]
        refine ⟨hpw, List.pairwise_singleton _ _, ?_⟩
        intro a ha b hb2
        rcases List.mem_singleton.mp hb2 with rfl
        have := hcap1 a ha
        exact Nat.le_trans this (by decide)
      · intro e he
        rcases List.mem_append.mp he with he | he
        · have := hcap1 e he
          simp only [phaseCap]
          omega
        · rcases List.mem_singleton.mp he with rfl
          simp [evRank, phaseCap]
    | read d h =>
      have hcap3 : ∀ e ∈ tr0, evRank e ≤ 3 := by
        intro e he
        have := hcap e he
        rw [h] at this
        simpa [phaseCap] using this
      refine ⟨?_, ?_, fun _ => hdrain (by simp [h])⟩
      · rw [List.pairwise_append]
        refine ⟨hpw, List.pairwise_singleton _ _, ?_⟩
        intro a ha b hb2
        rcases List.mem_singleton.mp hb2 with rfl
        have := hcap3 a ha
        exact Nat.le_trans this (by simp [evRank])
      · intro e he
        rcases List.mem_append.mp he with he | he
        · have := hcap3 e he
          rw [h]
          simpa [phaseCap] using this
        · rcases List.mem_singleton.mp he with rfl
          simp [h, evRank, phaseCap]
    | emitFile i f h =>
      have hcap3 : ∀ e ∈ tr0, evRank e ≤ 3 := by
        intro e he
        have := hcap e he
        rw [h] at this
        simpa [phaseCap] using this
      refine ⟨?_, ?_, fun _ => hdrain (by simp [h])⟩
      · rw [List.pairwise_append]
        refine ⟨hpw, List.pairwise_singleton _ _, ?_⟩
        intro a ha b hb2
        rcases List.mem_singleton.mp hb2 with rfl
        have := hcap3 a ha
        exact Nat.le_trans this (by simp [evRank])
      · intro e he
        rcases List.mem_append.mp he with he | he
        · have := hcap3 e he
          rw [h]
          simpa [phaseCap] using this
        · rcases List.mem_singleton.mp he with rfl
          simp [h, evRank, phaseCap]

/-- Witness for C8: a concrete full run — root record, one directory
taken and finished (writing `"a"`), join, close, open, read — is
reachable, and its trace is rank-ordered. -/
theorem C8_phase_barrier_witness :
    MReach ⟨MPhase.p2, 0, 0⟩
        ((((([Ev.ledgerWrite "."] ++ []) ++ [Ev.ledgerWrite "a"]) ++
          [Ev.ledgerClose]) ++ [Ev.openOuts]) ++ [Ev.ledgerRead "a"]) ∧
      List.Pairwise (fun a b => evRank a ≤ evRank b)
        ((((([Ev.ledgerWrite "."] ++ []) ++ [Ev.ledgerWrite "a"]) ++
          [Ev.ledgerClose]) ++ [Ev.openOuts]) ++ [Ev.ledgerRead "a"]) := by
  have h1 : MReach ⟨MPhase.p1, 0, 1⟩ ([Ev.ledgerWrite "."] ++ []) :=
    MReach.next MReach.init (MStep.take _ rfl (by decide))
  have h2 : MReach ⟨MPhase.p1, 0, 0⟩
      (([Ev.ledgerWrite "."] ++ []) ++ [Ev.ledgerWrite "a"]) :=
    MReach.next h1 (MStep.finish _ ["a"] 0 rfl (by decide))
  have h3 : MReach ⟨MPhase.closed, 0, 0⟩
      ((([Ev.ledgerWrite "."] ++ []) ++ [Ev.ledgerWrite "a"]) ++ [Ev.ledgerClose]) :=
    MReach.next h2 (MStep.close _ rfl rfl rfl)
  have h4 : MReach ⟨MPhase.p2, 0, 0⟩
      (((([Ev.ledgerWrite "."] ++ []) ++ [Ev.ledgerWrite "a"]) ++
        [Ev.ledgerClose]) ++ [Ev.openOuts]) :=
    MReach.next h3 (MStep.openO _ rfl)
  have h5 : MReach ⟨MPhase.p2, 0, 0⟩
      ((((([Ev.ledgerWrite "."] ++ []) ++ [Ev.ledgerWrite "a"]) ++
        [Ev.ledgerClose]) ++ [Ev.openOuts]) ++ [Ev.ledgerRead "a"]) :=
    MReach.next h4 (MStep.read _ "a" rfl)
  exact ⟨h5, (C8_phase_barrier _ _ h5).1⟩

/-- C9: every output sink — the Directory Ledger file (line 52) and every
shard file or the single manifest opened by `open_outputs` (lines 11, 15)
— is opened in append mode (`"ab"`); with append semantics the file's
prior bytes are preserved unchanged as a prefix and new records land after
them, so no output file is ever truncated. -/
theorem C9_append_only (manifest outdir : String) (shards : Nat)
    (fm : String × OpenMode) (prior written : List Nat)
    (hm : fm ∈ open_outputs manifest outdir shards) :
    fm.2 = OpenMode.append ∧
      dirsFileMode = OpenMode.append ∧
      writeRun fm.2 prior written = prior ++ written ∧
      (writeRun fm.2 prior written).take prior.length = prior := by
  have hfm : fm.2 = OpenMode.append := by
    unfold open_outputs at hm
    split at hm
    · rcases List.mem_map.mp hm with ⟨i, _, rfl⟩
      rfl
    · rcases List.mem_singleton.mp hm with rfl
      rfl
  refine ⟨hfm, rfl, by rw [hfm]; rfl, ?_⟩
  rw [hfm]
  exact List.take_left prior written

/-- Witness for C9 at the first shard file of a two-shard configuration. -/
theorem C9_append_only_witness :
    (("o/" ++ shardFile 0, OpenMode.append) ∈ open_outputs "m" "o" 2) ∧
      ((("o/" ++ shardFile 0, OpenMode.append) : String × OpenMode).2 =
          OpenMode.append ∧
        dirsFileMode = OpenMode.append ∧
        writeRun OpenMode.append [7] [8, 9] = [7] ++ [8, 9] ∧
        (writeRun OpenMode.append [7] [8, 9]).take [7].length = [7]) := by
  have hm : (("o/" ++ shardFile 0, OpenMode.append) : String × OpenMode) ∈
      open_outputs "m" "o" 2 := by
    unfold open_outputs
    simp only [show 2 > 0 by decide, if_true, ite_true, List.mem_map]
    exact ⟨0, by simp, rfl⟩
  exact ⟨hm, C9_append_only "m" "o" 2 _ [7] [8, 9] hm⟩

/-! ## Lemmas: path splitting and joining -/

/-- A separator-free character list is one component. -/
theorem splitSep_no_sep (p : List Char) (h : '/' ∉ p) : splitSep p = [p] := by
  induction p with
  | nil => rfl
  | cons c p ih =>
    have hc : ¬ c = '/' := fun he => h (he ▸ List.mem_cons_self c p)
    have hp : '/' ∉ p := fun hm => h (List.mem_cons_of_mem c hm)
    simp [splitSep, hc, ih hp]

/-- Splitting after a separator-free head component. -/
theorem splitSep_sep (p l : List Char) (h : '/' ∉ p) :
    splitSep (p ++ '/' :: l) = p :: splitSep l := by
  induction p with
  | nil => simp [splitSep]
  | cons c p ih =>
    have hc : ¬ c = '/' := fun he => h (he ▸ List.mem_cons_self c p)
    have hp : '/' ∉ p := fun hm => h (List.mem_cons_of_mem c hm)
    simp [splitSep, hc, ih hp]

/-- Splitting inverts joining for separator-free components. -/
theorem splitSep_joinSep (ps : List (List Char)) (h : ∀ p ∈ ps, '/' ∉ p)
    (hne : ps ≠ []) : splitSep (joinSep ps) = ps := by
  induction ps with
  | nil => exact absurd rfl hne
  | cons p ps ih =>
    cases ps with
    | nil => exact splitSep_no_sep p (h p (by simp))
    | cons q ps =>
      have hp : '/' ∉ p := h p (by simp)
      have hq : ∀ r ∈ q :: ps, '/' ∉ r := fun r hr => h r (by simp [hr])
      rw [joinSep, splitSep_sep p _ hp, ih hq (by simp)]

/-- Joining distributes over a final component. -/
theorem joinSep_append_single (ps : List (List Char)) (p : List Char) (h : ps ≠ []) :
    joinSep (ps ++ [p]) = joinSep ps ++ '/' :: p := by
  induction ps with
  | nil => exact absurd rfl h
  | cons q ps ih =>
    cases ps with
    | nil => rfl
    | cons r ps =>
      have hih := ih (by simp)
      simp only [joinSep, List.cons_append]
      rw [show r :: ps.append [p] = r :: ps ++ [p] from rfl, hih]
      simp [List.append_assoc]

/-! ## Lemmas: clean names and trees -/

/-- What a well-formed name gives us. -/
theorem cleanNameB_props (s : String) (h : cleanNameB s = true) :
    s ≠ "" ∧ s ≠ "." ∧ ('/' ∉ s.data) ∧ ∀ ch ∈ s.data, ch.toNat ≠ 0 := by
  simp only [cleanNameB, Bool.and_eq_true, beq_iff_eq, Bool.not_eq_true',
    beq_eq_false_iff_ne, List.all_eq_true] at h
  obtain ⟨⟨⟨h1, h2⟩, _⟩, h4⟩ := h
  refine ⟨h1, h2, ?_, ?_⟩
  · intro hm
    have := h4 '/' hm
    simp at this
  · intro ch hm
    have := (h4 ch hm).2
    simpa using this

/-- Clean listings have clean entries. -/
theorem cleanL_mem (es : List FSEntry) (e : FSEntry) (h : cleanL es = true)
    (he : e ∈ es) : entClean e = true := by
  simp only [cleanL, Bool.and_eq_true, List.all_eq_true] at h
  exact h.2 e he

/-- Clean listings have distinct sibling names. -/
theorem cleanL_nodup (es : List FSEntry) (h : cleanL es = true) :
    (es.map entryName).Nodup := by
  simp only [cleanL, Bool.and_eq_true, decide_eq_true_eq] at h
  exact h.1

/-- A clean directory entry: clean name and clean subtree. -/
theorem entClean_dir (n : String) (link ok : Bool) (sub : List FSEntry)
    (h : entClean (FSEntry.dir n link ok sub) = true) :
    cleanNameB n = true ∧ cleanL sub = true := by
  rw [entClean] at h
  simp only [Bool.and_eq_true, List.all_eq_true] at h
  obtain ⟨⟨h1, h2⟩, h3⟩ := h
  refine ⟨h1, ?_⟩
  simp only [cleanL, Bool.and_eq_true, List.all_eq_true]
  refine ⟨h2, ?_⟩
  intro e he
  exact h3 ⟨e, he⟩ (List.mem_attach sub ⟨e, he⟩)

/-! ## Lemmas: rendered chains -/

/-- Appending one name to a chain joins it onto the rendered path. -/
theorem render_append_single (c : List String) (n : String) :
    render (c ++ [n]) = relFile (render c) n := by
  simp [render, List.foldl_append]

/-- A nonempty string is one with nonempty character data. -/
theorem str_ne_empty_iff (s : String) : s ≠ "" ↔ s.data ≠ [] := by
  constructor
  · intro h hd
    exact h (String.ext hd)
  · intro h he
    exact h (he ▸ rfl)

/-- Everything about the rendered path of a clean nonempty chain: its
characters are the `'/'`-join of the names, it is neither `"."` nor empty,
it does not start with the separator, and it contains no NUL. -/
theorem render_spec : ∀ c : List String, cleanChain c = true → c ≠ [] →
    (render c).data = joinSep (c.map String.data) ∧
      render c ≠ "." ∧ render c ≠ "" ∧
      (render c).data.head? ≠ some '/' ∧
      ∀ ch ∈ (render c).data, ch.toNat ≠ 0 := by
  intro c
  induction c using List.reverseRecOn with
  | nil => intro _ hne; exact absurd rfl hne
  | append_singleton c n ih =>
    intro hc _
    have hc2 : cleanChain c = true ∧ cleanNameB n = true := by
      simp only [cleanChain, List.all_append, List.all_cons, List.all_nil,
        Bool.and_eq_true, Bool.and_true] at hc
      exact hc
    obtain ⟨hc1, hn⟩ := hc2
    obtain ⟨hn1, hn2, hn3, hn4⟩ := cleanNameB_props n hn
    rw [render_append_single]
    rcases List.eq_nil_or_concat c with rfl | ⟨c0, x0, rfl⟩
    · have hr : relFile (render []) n = n := by simp [render, relFile]
      rw [hr]
      refine ⟨by simp [joinSep], hn2, hn1, ?_, hn4⟩
      intro hh
      rcases List.head?_eq_some_iff.mp hh with ⟨ys, hys⟩
      exact hn3 (by rw [hys]; exact List.mem_cons_self _ _)
    · set d := render _ with hd
      obtain ⟨ihd, ihdot, ihemp, ihhead, ihnul⟩ := ih hc1 (by simp)
      have hddata : d.data ≠ [] := (str_ne_empty_iff d).mp ihemp
      have hrf : relFile d n = d ++ "/" ++ n := by simp [relFile, ihdot]
      have hdata : (relFile d n).data = d.data ++ '/' :: n.data := by
        rw [hrf]
        simp only [String.data_append]
        simp
      refine ⟨?_, ?_, ?_, ?_, ?_⟩
      · rw [hdata, List.map_append, List.map_singleton,
          joinSep_append_single _ _ (by simp), ihd]
      · intro he
        have hlen := congrArg (fun s => s.data.length) he
        simp only [hdata] at hlen
        have h1 : (("." : String).data).length = 1 := rfl
        simp only [List.length_append, List.length_cons, h1] at hlen
        have : d.data.length ≥ 1 := by
          cases hdd : d.data with
          | nil => exact absurd hdd hddata
          | cons a l => simp [hdd]
        omega
      · intro he
        have hlen := congrArg (fun s => s.data.length) he
        simp only [hdata] at hlen
        have h1 : ((("" : String)).data).length = 0 := rfl
        simp only [List.length_append, List.length_cons, h1] at hlen
        omega
      · rw [hdata]
        rw [List.head?_append]
        cases hdd : d.data with
        | nil => exact absurd hdd hddata
        | cons a l =>
          rw [hdd] at ihhead
          simpa using ihhead
      · rw [hdata]
        intro ch hm
        rcases List.mem_append.mp hm with hm | hm
        · exact ihnul ch hm
        · rcases List.mem_cons.mp hm with rfl | hm
          · decide
          · exact hn4 ch hm

/-- Rendering is injective on clean chains. -/
theorem render_inj (c1 c2 : List String) (h1 : cleanChain c1 = true)
    (h2 : cleanChain c2 = true) (he : render c1 = render c2) : c1 = c2 := by
  rcases List.eq_nil_or_concat c1 with rfl | ⟨a1, x1, rfl⟩
  · rcases List.eq_nil_or_concat c2 with rfl | ⟨a2, x2, rfl⟩
    · rfl
    · obtain ⟨_, hdot, _, _, _⟩ := render_spec _ h2 (by simp)
      exact absurd he.symm hdot
  · rcases List.eq_nil_or_concat c2 with rfl | ⟨a2, x2, rfl⟩
    · obtain ⟨_, hdot, _, _, _⟩ := render_spec _ h1 (by simp)
      exact absurd he hdot
    · obtain ⟨hd1, _, _, _, _⟩ := render_spec _ h1 (by simp)
      obtain ⟨hd2, _, _, _, _⟩ := render_spec _ h2 (by simp)
      have hj : joinSep ((a1.concat x1).map String.data) =
          joinSep ((a2.concat x2).map String.data) := by
        rw [← hd1, ← hd2, he]
      have hns1 : ∀ p ∈ (a1.concat x1).map String.data, '/' ∉ p := by
        intro p hp
        rcases List.mem_map.mp hp with ⟨nm, hnm, rfl⟩
        have hcn : cleanNameB nm = true := by
          simp only [cleanChain, List.all_eq_true] at h1
          exact h1 nm hnm
        exact (cleanNameB_props nm hcn).2.2.1
      have hns2 : ∀ p ∈ (a2.concat x2).map String.data, '/' ∉ p := by
        intro p hp
        rcases List.mem_map.mp hp with ⟨nm, hnm, rfl⟩
        have hcn : cleanNameB nm = true := by
          simp only [cleanChain, List.all_eq_true] at h2
          exact h2 nm hnm
        exact (cleanNameB_props nm hcn).2.2.1
      have hsplit : (a1.concat x1).map String.data = (a2.concat x2).map String.data := by
        rw [← splitSep_joinSep _ hns1 (by simp), ← splitSep_joinSep _ hns2 (by simp), hj]
      have := congrArg (List.map String.mk) hsplit
      simpa [List.map_map, Function.comp_def] using this

/-! ## Lemmas: ledger chains -/

/-- A ledger chain never passes through an excluded name. -/
theorem LChain_not_excl {excl : List String} {follow : Bool}
    {es : List FSEntry} {c : List String} {d : FSEntry}
    (h : LChain excl follow es c d) : ∀ x ∈ c, x ∉ excl := by
  induction h with
  | single hmem hlink hexcl =>
    intro x hx
    rcases List.mem_singleton.mp hx with rfl
    assumption
  | step hmem hlink hexcl htail ih =>
    intro x hx
    rcases List.mem_cons.mp hx with rfl | hx
    · assumption
    · exact ih x hx

/-- Ledger chains are nonempty. -/
theorem LChain_ne_nil {excl : List String} {follow : Bool}
    {es : List FSEntry} {c : List String} {d : FSEntry}
    (h : LChain excl follow es c d) : c ≠ [] := by
  cases h <;> simp

/-- The target of a ledger chain is a directory entry. -/
theorem LChain_target_dir {excl : List String} {follow : Bool}
    {es : List FSEntry} {c : List String} {d : FSEntry}
    (h : LChain excl follow es c d) :
    ∃ n link ok sub, d = FSEntry.dir n link ok sub := by
  induction h with
  | single hmem hlink hexcl => exact ⟨_, _, _, _, rfl⟩
  | step hmem hlink hexcl htail ih => exact ih

/-- In a clean tree, a ledger chain consists of clean names and ends at a
clean entry. -/
theorem LChain_clean {excl : List String} {follow : Bool}
    {es : List FSEntry} {c : List String} {d : FSEntry}
    (h : LChain excl follow es c d) (hc : cleanL es = true) :
    cleanChain c = true ∧ entClean d = true := by
  induction h with
  | single hmem hlink hexcl =>
    have he := cleanL_mem _ _ hc hmem
    have hn := (entClean_dir _ _ _ _ he).1
    exact ⟨by simp [cleanChain, hn], he⟩
  | @step es n link sub c d hmem hlink hexcl htail ih =>
    have he := cleanL_mem _ _ hc hmem
    obtain ⟨hn, hsub⟩ := entClean_dir _ _ _ _ he
    obtain ⟨hcc, hd⟩ := ih hsub
    refine ⟨?_, hd⟩
    simp only [cleanChain, List.all_cons, Bool.and_eq_true]
    exact ⟨hn, hcc⟩

/-! ## Lemmas: phase-1 traversal structure -/

/-- Non-directory entries contribute nothing in phase 1. -/
theorem scanEntry_file (excl : List String) (follow : Bool) (rel n : String)
    (l : Bool) : scanEntry excl follow rel (.file n l) = [] := by
  simp [scanEntry]

/-- Entries whose classification raises contribute nothing in phase 1. -/
theorem scanEntry_statErr (excl : List String) (follow : Bool) (rel n : String) :
    scanEntry excl follow rel (.statErr n) = [] := by
  simp [scanEntry]

/-- Unfolding for directory entries, in terms of `scanList`. -/
theorem scanEntry_dir (excl : List String) (follow : Bool) (rel n : String)
    (link ok : Bool) (sub : List FSEntry) :
    scanEntry excl follow rel (.dir n link ok sub) =
      if link && !follow then []
      else if n ∈ excl then []
      else relFile rel n ::
        (if ok then scanList excl follow (relFile rel n) sub else []) := by
  rw [scanEntry]
  simp [scanList, List.attach_map_val]

/-- Every record phase 1 emits while scanning a listing `es` at relative
path `rel` is the fold of a ledger chain of `es` onto `rel` (fuel `k`
bounds the tree size for the induction). -/
theorem scanList_chains : ∀ (k : Nat) (es : List FSEntry) (excl : List String)
    (follow : Bool) (rel s : String), sizeOf es ≤ k →
    s ∈ scanList excl follow rel es →
    ∃ c d, LChain excl follow es c d ∧ s = c.foldl relFile rel := by
  intro k
  induction k with
  | zero =>
    intro es excl follow rel s hsz
    have h1 : 1 ≤ sizeOf es := by
      cases es <;> simp_arith
    omega
  | succ k ih =>
    intro es excl follow rel s hsz hmem
    rcases List.mem_flatten.mp hmem with ⟨l, hl, hsl⟩
    rcases List.mem_map.mp hl with ⟨e, he, rfl⟩
    cases e with
    | file n lk => rw [scanEntry_file] at hsl; cases hsl
    | statErr n => rw [scanEntry_statErr] at hsl; cases hsl
    | dir n link ok sub =>
      rw [scanEntry_dir] at hsl
      by_cases h1 : link && !follow
      · rw [if_pos h1] at hsl; cases hsl
      rw [if_neg h1] at hsl
      by_cases h2 : n ∈ excl
      · rw [if_pos h2] at hsl; cases hsl
      rw [if_neg h2] at hsl
      have hlink : link = true → follow = true := by
        intro hl2
        by_contra hf
        exact h1 (by simp [hl2, hf])
      rcases List.mem_cons.mp hsl with rfl | htail
      · exact ⟨[n], FSEntry.dir n link ok sub,
          LChain.single he hlink h2, by simp⟩
      · by_cases hok : ok = true
        · rw [hok, if_pos rfl] at htail
          have hsub : sizeOf sub ≤ k := by
            have hm := List.sizeOf_lt_of_mem he
            simp only [FSEntry.dir.sizeOf_spec] at hm
            omega
          obtain ⟨c, d, hch, rfl⟩ := ih sub excl follow (relFile rel n) _ hsub htail
          refine ⟨n :: c, d, LChain.step (hok ▸ he) hlink h2 hch, ?_⟩
          simp
        · rw [if_neg hok] at htail
          cases htail

/-- Every record in the Directory Ledger is `"."` or the rendering of a
ledger chain of the root listing. -/
theorem ledger_chains (excl : List String) (follow : Bool) (rootOk : Bool)
    (rootEs : List FSEntry) (s : String)
    (h : s ∈ ledgerList excl follow rootOk rootEs) :
    s = "." ∨ ∃ c d, LChain excl follow rootEs c d ∧ s = render c := by
  rcases List.mem_cons.mp h with rfl | h
  · exact Or.inl rfl
  · right
    rcases hro : rootOk with _ | _
    · rw [hro] at h; simp at h
    · rw [hro, if_pos rfl] at h
      obtain ⟨c, d, hch, rfl⟩ :=
        scanList_chains (sizeOf rootEs) rootEs excl follow "." s le_rfl h
      exact ⟨c, d, hch, rfl⟩

/-! ## Lemmas: phase-2 resolution -/

/-- With distinct sibling names, lookup finds the member entry. -/
theorem findEntry_nodup (es : List FSEntry) (e : FSEntry)
    (hnd : (es.map entryName).Nodup) (he : e ∈ es) :
    findEntry (entryName e) es = some e := by
  induction es with
  | nil => cases he
  | cons a es ih =>
    rcases List.mem_cons.mp he with rfl | he
    · simp [findEntry]
    · have hne : ¬ entryName a = entryName e := by
        intro hee
        have : entryName e ∈ es.map entryName := List.mem_map_of_mem entryName he
        rw [← hee] at this
        exact (List.nodup_cons.mp hnd).1 this
      have hnd2 : (es.map entryName).Nodup := (List.nodup_cons.mp hnd).2
      have hih := ih hnd2 he
      simp only [findEntry] at hih ⊢
      rw [List.find?_cons_of_neg _ (by simp only [decide_eq_true_eq]; exact hne)]
      exact hih

/-- In a clean tree, descending along a ledger chain reaches the chain's
target directory. -/
theorem descend_lchain {excl : List String} {follow : Bool} :
    ∀ {es : List FSEntry} {c : List String} {d : FSEntry},
      LChain excl follow es c d →
      ∀ {n : String} {link ok : Bool} {sub : List FSEntry},
        d = FSEntry.dir n link ok sub → cleanL es = true →
        descend c es = some (ok, sub) := by
  intro es c d h
  induction h with
  | @single es2 n2 link2 ok2 sub2 hmem hlink hexcl =>
    intro n link ok sub hd hcl
    cases hd
    have hf : findEntry n2 es2 = some (FSEntry.dir n2 link2 ok2 sub2) :=
      findEntry_nodup es2 _ (cleanL_nodup es2 hcl) hmem
    simp [descend, hf]
  | @step es2 n2 link2 sub2 c2 d2 hmem hlink hexcl htail ih =>
    intro n link ok sub hd hcl
    have hf : findEntry n2 es2 = some (FSEntry.dir n2 link2 true sub2) :=
      findEntry_nodup es2 _ (cleanL_nodup es2 hcl) hmem
    have hsub : cleanL sub2 = true :=
      (entClean_dir _ _ _ _ (cleanL_mem _ _ hcl hmem)).2
    have hne := LChain_ne_nil htail
    cases c2 with
    | nil => exact absurd rfl hne
    | cons m c3 =>
      simp only [descend, hf]
      exact ih hd hsub

/-- Parsing inverts rendering for clean nonempty chains. -/
theorem parseRel_render (c : List String) (hc : cleanChain c = true)
    (hne : c ≠ []) : parseRel (render c) = c := by
  obtain ⟨hd, _, _, _, _⟩ := render_spec c hc hne
  have hns : ∀ p ∈ c.map String.data, '/' ∉ p := by
    intro p hp
    rcases List.mem_map.mp hp with ⟨nm, hnm, rfl⟩
    have hcn : cleanNameB nm = true := by
      simp only [cleanChain, List.all_eq_true] at hc
      exact hc nm hnm
    exact (cleanNameB_props nm hcn).2.2.1
  unfold parseRel
  rw [hd, splitSep_joinSep _ hns (by simpa using hne)]
  simp [List.map_map, Function.comp_def]

/-- `os.scandir(os.path.join(root, dir_rel))` on the rendering of a ledger
chain lists exactly the chain's target directory. -/
theorem resolveDir_render {excl : List String} {follow : Bool}
    (rootOk : Bool) (rootEs : List FSEntry) (c : List String)
    (n : String) (link ok : Bool) (sub : List FSEntry)
    (h : LChain excl follow rootEs c (FSEntry.dir n link ok sub))
    (hcl : cleanL rootEs = true) :
    resolveDir rootOk rootEs (render c) = some (ok, sub) := by
  obtain ⟨hcc, _⟩ := LChain_clean h hcl
  obtain ⟨_, hdot, _, _, _⟩ := render_spec c hcc (LChain_ne_nil h)
  unfold resolveDir
  rw [if_neg hdot, parseRel_render c hcc (LChain_ne_nil h)]
  exact descend_lchain h rfl hcl

/-- Extraction of an encoded record sequence (NUL-free records). -/
theorem extractRecords_encodeSeq (ps : List String)
    (h : ∀ s ∈ ps, 0 ∉ strBytes s) :
    extractRecords (encodeSeq ps) = (ps.map strBytes, []) := by
  have heq : encodeSeq ps = (ps.map strBytes).flatMap fun r => r ++ [0] := by
    simp [encodeSeq, List.flatMap_map]
  rw [heq]
  refine extractRecords_flat _ ?_
  intro r hr
  rcases List.mem_map.mp hr with ⟨s, hs, rfl⟩
  exact h s hs

/-- Every ledger record of a clean tree is NUL-free and nonempty. -/
theorem ledger_rec_props (excl : List String) (follow : Bool) (rootOk : Bool)
    (rootEs : List FSEntry) (hcl : cleanL rootEs = true) (s : String)
    (hs : s ∈ ledgerList excl follow rootOk rootEs) :
    (∀ ch ∈ s.data, ch.toNat ≠ 0) ∧ s ≠ "" := by
  rcases ledger_chains excl follow rootOk rootEs s hs with rfl | ⟨c, d, hch, rfl⟩
  · exact ⟨by decide, by decide⟩
  · obtain ⟨hcc, _⟩ := LChain_clean hch hcl
    obtain ⟨_, _, hemp, _, hnul⟩ := render_spec c hcc (LChain_ne_nil hch)
    exact ⟨hnul, hemp⟩

/-- Phase 2 dequeues exactly the ledger records: the written ledger of a
clean tree decodes back to itself. -/
theorem phase2Input_eq (excl : List String) (follow : Bool) (rootOk : Bool)
    (rootEs : List FSEntry) (hcl : cleanL rootEs = true) :
    phase2Input excl follow rootOk rootEs = ledgerList excl follow rootOk rootEs := by
  unfold phase2Input ledgerBytes
  rw [streamDecode_eq_extract]
  have hfl : ([encodeSeq (ledgerList excl follow rootOk rootEs)] :
      List (List Nat)).flatten = encodeSeq (ledgerList excl follow rootOk rootEs) := by
    simp
  rw [hfl, extractRecords_encodeSeq _ (fun s hs =>
    strBytes_no_nul s (ledger_rec_props excl follow rootOk rootEs hcl s hs).1)]
  rw [List.map_map]
  refine List.map_congr_left ?_ |>.trans (List.map_id _)
  intro s hs
  have hne : s ≠ "" := (ledger_rec_props excl follow rootOk rootEs hcl s hs).2
  simp only [Function.comp_def, orDot, strDecode_strBytes, id]
  rw [if_neg hne]

/-- A clean file entry has a clean name. -/
theorem entClean_file (n : String) (l : Bool)
    (h : entClean (FSEntry.file n l) = true) : cleanNameB n = true := by
  rw [entClean] at h
  exact h

/-- What a membership in `filesOf` means. -/
theorem filesOf_mem (es : List FSEntry) (m : String) (h : m ∈ filesOf es) :
    FSEntry.file m false ∈ es := by
  rcases List.mem_filterMap.mp h with ⟨e, he, hg⟩
  cases e with
  | dir n link ok sub => simp [filesOf] at hg
  | statErr n => simp [filesOf] at hg
  | file n link =>
    cases link with
    | false =>
      simp only [filesOf] at hg
      cases hg
      exact he
    | true => simp [filesOf] at hg

/-- Every file path phase 2 emits on a clean tree is the join of a clean,
exclusion-free ledger chain (possibly the root) with a clean file name,
and its directory record was dequeued from the decoded ledger. -/
theorem phase2Files_chains (excl : List String) (follow : Bool) (rootOk : Bool)
    (rootEs : List FSEntry) (hcl : cleanL rootEs = true) (f : String)
    (hf : f ∈ phase2Files excl follow rootOk rootEs) :
    ∃ (c : List String) (m : String), cleanChain c = true ∧ cleanNameB m = true ∧
      (∀ x ∈ c, x ∉ excl) ∧ f = relFile (render c) m ∧
      render c ∈ phase2Input excl follow rootOk rootEs := by
  rcases List.mem_flatMap.mp hf with ⟨drel, hdrel, hfr⟩
  have hdl : drel ∈ ledgerList excl follow rootOk rootEs := by
    rw [← phase2Input_eq excl follow rootOk rootEs hcl]
    exact hdrel
  rcases ledger_chains excl follow rootOk rootEs drel hdl with rfl | ⟨c, d, hch, rfl⟩
  · unfold filesOfRecord resolveDir at hfr
    rw [if_pos rfl] at hfr
    cases rootOk with
    | false => simp at hfr
    | true =>
      simp only [if_pos rfl] at hfr
      rcases List.mem_map.mp hfr with ⟨m, hm, rfl⟩
      have hent := filesOf_mem rootEs m hm
      have hmc : cleanNameB m = true := entClean_file m false (cleanL_mem rootEs _ hcl hent)
      refine ⟨[], m, rfl, hmc, by simp, by simp [render], ?_⟩
      have : render ([] : List String) = "." := rfl
      rw [this, phase2Input_eq excl follow true rootEs hcl]
      exact List.mem_cons_self _ _
  · obtain ⟨n, link, ok, sub, rfl⟩ := LChain_target_dir hch
    have hres := resolveDir_render rootOk rootEs c n link ok sub hch hcl
    unfold filesOfRecord at hfr
    rw [hres] at hfr
    cases ok with
    | false => simp at hfr
    | true =>
      simp only [if_pos rfl] at hfr
      rcases List.mem_map.mp hfr with ⟨m, hm, rfl⟩
      have hent := filesOf_mem sub m hm
      have hsubc : cleanL sub = true :=
        (entClean_dir _ _ _ _ (LChain_clean hch hcl).2).2
      have hmc : cleanNameB m = true := entClean_file m false (cleanL_mem sub _ hsubc hent)
      exact ⟨c, m, (LChain_clean hch hcl).1, hmc, LChain_not_excl hch, rfl, hdrel⟩

/-- C4: a directory entry whose name is excluded is invisible.  (i) The
worker emits nothing for it — its path is not written to the ledger and it
is not enqueued, so its subtree is never scanned; (ii) no relative path
whose name chain passes through an excluded name is ever a ledger record;
(iii) no file whose owning chain passes through an excluded name is ever
emitted to any output. -/
theorem C4_excluded_invisible (excl : List String) (follow rootOk : Bool)
    (rootEs : List FSEntry) (hcl : cleanL rootEs = true) :
    (∀ (rel n : String) (link ok : Bool) (es : List FSEntry), n ∈ excl →
        scanEntry excl follow rel (FSEntry.dir n link ok es) = []) ∧
      (∀ c : List String, cleanChain c = true → (∃ x ∈ c, x ∈ excl) →
        render c ∉ ledgerList excl follow rootOk rootEs) ∧
      (∀ (c : List String) (m : String), cleanChain c = true →
        cleanNameB m = true → (∃ x ∈ c, x ∈ excl) →
        relFile (render c) m ∉ phase2Files excl follow rootOk rootEs) := by
  refine ⟨?_, ?_, ?_⟩
  · intro rel n link ok es hmem
    simp [scanEntry_dir, hmem]
  · intro c hc hex hmem
    have hcne : c ≠ [] := by
      rintro rfl
      simp at hex
    rcases ledger_chains excl follow rootOk rootEs _ hmem with heq | ⟨c2, d2, hch2, heq⟩
    · obtain ⟨_, hdot, _, _, _⟩ := render_spec c hc hcne
      exact hdot heq
    · have hcc2 := (LChain_clean hch2 hcl).1
      have hce := render_inj c c2 hc hcc2 heq
      obtain ⟨x, hxc, hxe⟩ := hex
      exact LChain_not_excl hch2 x (hce ▸ hxc) hxe
  · intro c m hc hm hex hmem
    obtain ⟨c2, m2, hcc2, hm2, hnex, heq, _⟩ :=
      phase2Files_chains excl follow rootOk rootEs hcl _ hmem
    rw [← render_append_single, ← render_append_single] at heq
    have h1 : cleanChain (c ++ [m]) = true := by
      simp only [cleanChain, List.all_append, List.all_cons, List.all_nil,
        Bool.and_true, Bool.and_eq_true]
      exact ⟨hc, hm⟩
    have h2 : cleanChain (c2 ++ [m2]) = true := by
      simp only [cleanChain, List.all_append, List.all_cons, List.all_nil,
        Bool.and_true, Bool.and_eq_true]
      exact ⟨hcc2, hm2⟩
    have hce := render_inj _ _ h1 h2 heq
    obtain ⟨hcc, _⟩ := List.append_inj' hce rfl
    obtain ⟨x, hxc, hxe⟩ := hex
    exact hnex x (hcc ▸ hxc) hxe

/-- C5: every emitted file path is the owning directory record joined to
the entry name with `"/"` — bare name when the owning record is the root
sentinel `"."` — and never begins with a separator. -/
theorem C5_relative_path_shape (excl : List String) (follow rootOk : Bool)
    (rootEs : List FSEntry) (hcl : cleanL rootEs = true) :
    ∀ f ∈ phase2Files excl follow rootOk rootEs,
      (∃ d m, d ∈ phase2Input excl follow rootOk rootEs ∧ f = relFile d m ∧
        (d = "." → f = m) ∧ (d ≠ "." → f = d ++ "/" ++ m)) ∧
      f.data.head? ≠ some '/' := by
  intro f hf
  obtain ⟨c, m, hcc, hm, hnex, rfl, hin⟩ :=
    phase2Files_chains excl follow rootOk rootEs hcl f hf
  obtain ⟨hm1, hm2, hm3, hm4⟩ := cleanNameB_props m hm
  constructor
  · refine ⟨render c, m, hin, rfl, ?_, ?_⟩
    · intro hd
      simp [relFile, hd]
    · intro hd
      simp [relFile, hd]
  · by_cases hc0 : c = []
    · subst hc0
      have hr : relFile (render ([] : List String)) m = m := by
        simp [render, relFile]
      rw [hr]
      intro hh
      rcases List.head?_eq_some_iff.mp hh with ⟨ys, hys⟩
      exact hm3 (by rw [hys]; exact List.mem_cons_self _ _)
    · obtain ⟨_, hdot, hemp, hhead, _⟩ := render_spec c hcc hc0
      have hdata : (relFile (render c) m).data =
          (render c).data ++ '/' :: m.data := by
        simp only [relFile, if_neg hdot, String.data_append]
        simp
      rw [hdata, List.head?_append]
      cases hdd : (render c).data with
      | nil => exact absurd hdd ((str_ne_empty_iff _).mp hemp)
      | cons a l =>
        rw [hdd] at hhead
        simpa using hhead

/-- Witness for C4: the spec's scenario — root contains `b/` (excluded,
containing `secret.txt`) and `x.txt`; `b` is not in the ledger, nothing
under `b` is emitted, and the worker emits nothing for `b`. -/
theorem C4_excluded_invisible_witness :
    cleanL [FSEntry.dir "b" false true [FSEntry.file "secret.txt" false],
        FSEntry.file "x.txt" false] = true ∧
      cleanChain ["b"] = true ∧ (∃ x ∈ (["b"] : List String), x ∈ (["b"] : List String)) ∧
      render ["b"] ∉ ledgerList ["b"] false true
        [FSEntry.dir "b" false true [FSEntry.file "secret.txt" false],
          FSEntry.file "x.txt" false] ∧
      relFile (render ["b"]) "secret.txt" ∉ phase2Files ["b"] false true
        [FSEntry.dir "b" false true [FSEntry.file "secret.txt" false],
          FSEntry.file "x.txt" false] ∧
      scanEntry ["b"] false "." (FSEntry.dir "b" false true
        [FSEntry.file "secret.txt" false]) = [] := by
  have hcl : cleanL [FSEntry.dir "b" false true [FSEntry.file "secret.txt" false],
      FSEntry.file "x.txt" false] = true := by
    simp [cleanL, entClean, cleanNameB, entryName]
  have h := C4_excluded_invisible ["b"] false true
    [FSEntry.dir "b" false true [FSEntry.file "secret.txt" false],
      FSEntry.file "x.txt" false] hcl
  exact ⟨hcl, by decide, by decide,
    h.2.1 ["b"] (by decide) (by decide),
    h.2.2 ["b"] "secret.txt" (by decide) (by decide) (by decide),
    h.1 "." "b" false true [FSEntry.file "secret.txt" false] (by decide)⟩

/-- Witness for C5: the spec's scenario — root directly contains
`f1.txt`; the emitted path is the bare name with no leading separator. -/
theorem C5_relative_path_shape_witness :
    cleanL [FSEntry.file "f1.txt" false] = true ∧
      "f1.txt" ∈ phase2Files [] false true [FSEntry.file "f1.txt" false] ∧
      ((∃ d m, d ∈ phase2Input [] false true [FSEntry.file "f1.txt" false] ∧
          "f1.txt" = relFile d m ∧ (d = "." → "f1.txt" = m) ∧
          (d ≠ "." → "f1.txt" = d ++ "/" ++ m)) ∧
        ("f1.txt" : String).data.head? ≠ some '/') := by
  have hcl : cleanL [FSEntry.file "f1.txt" false] = true := by
    simp [cleanL, entClean, cleanNameB]
  have hmem : "f1.txt" ∈ phase2Files [] false true [FSEntry.file "f1.txt" false] := by
    unfold phase2Files
    rw [phase2Input_eq [] false true _ hcl]
    simp [ledgerList, scanList, scanEntry_file, filesOfRecord, resolveDir,
      filesOf, relFile]
  exact ⟨hcl, hmem,
    C5_relative_path_shape [] false true [FSEntry.file "f1.txt" false] hcl
      "f1.txt" hmem⟩
